import Mathlib

/-!
# Graph store and shortest-path engine

A shallow embedding of `Graph.h` / `Graph.cpp`: a directed weighted graph kept as
one singly linked adjacency list per vertex, the table `T` filled by
`findShortestPath` (Dijkstra from every vertex that has an outgoing edge), and the
recursive path printer.

Modelling conventions.

* `int` is `Int`; the one place where the program adds two `int`s
  (`T[source][v].dist + weight`) goes through `addInt`, the 32-bit two's-complement
  sum.
* A linked list `EdgeNode* edgeHead` is the `List EdgeNode` of its nodes, head first;
  `nextEdge` is the tail.  `vertices[i].edgeHead` is `g.edgeHead i`.
* The arrays `vertices` and `T` are total functions of the index; `size` is the field
  of the same name.  The vertex labels (`Vertex* data`) are not modelled, nothing
  below reads them.
* `std::priority_queue` is library code.  It is a parameter `Q : PriorityQueue`
  (contents as a list in the container's internal order, `push`, and `pop` for
  `top()` followed by `pop()`), constrained by `PriorityQueue.Lawful`, the contract
  of the C++ standard for the comparator `CompareAdjacentVertex`: `top()` is an entry
  of least `dist`, which one among equals is left open.  `listPQ` is one lawful
  queue, used to run the program on concrete graphs; `stdHeapPQ` is a binary heap, used
  for the same purpose where the order of equal entries matters.
* Dereferencing `nullptr` and `top()` on an empty queue are explicit faults.
-/

namespace Graph

/-! ## Data model (Graph.h) -/

/-- The value `numeric_limits<int>::max()`, used as "infinity". -/
def INT_MAX : Int := 2147483647

/-- The value `numeric_limits<int>::min()`. -/
def INT_MIN : Int := -2147483648

/-- The sum `a + b` of two `int`s as a 32-bit two's-complement machine computes it. -/
def addInt (a b : Int) : Int :=
  (a + b + 2147483648) % 4294967296 - 2147483648

/-- One `EdgeNode`; the `nextEdge` pointer is the tail of the list holding the node. -/
structure EdgeNode where
  adjVertex : Int
  weight : Int
deriving DecidableEq, Repr

/-- One entry of the table `T`. -/
structure Table where
  visited : Bool
  dist : Int
  path : Int
deriving DecidableEq, Repr

/-- The default-initialised `Table` entry: `visited = false`, `dist = INT_MAX`, `path = 0`. -/
def Table.init : Table := ⟨false, INT_MAX, 0⟩

/-- A frontier entry `AdjacentVertex`; a default-constructed one has `vertexIndex = -1` and
`dist = INT_MAX`, and the program always sets `vertexIndex` before the push. -/
structure AdjacentVertex where
  vertexIndex : Int
  dist : Int
deriving DecidableEq, Repr

end Graph

/-- The state of a `Graph` object: `size`, the adjacency lists and the table `T`. -/
structure Graph where
  size : Int
  edgeHead : Int → List Graph.EdgeNode
  T : Int → Int → Graph.Table

namespace Graph

/-- The table with entry `[s][d]` replaced by `e`. -/
def setT (T : Int → Int → Table) (s d : Int) (e : Table) : Int → Int → Table :=
  fun i j => if i = s ∧ j = d then e else T i j

/-- A freshly constructed graph of `n` vertices without edges (as after the vertex part of
`buildGraph`). -/
def empty (n : Int) : Graph := ⟨n, fun _ => [], fun _ _ => Table.init⟩

/-! ## Graph store (Graph.cpp 234-366) -/

/-- `Graph::isValidVertex`. -/
def isValidVertex (g : Graph) (vertex : Int) : Bool :=
  if vertex ≥ 1 ∧ vertex ≤ g.size then true else false

/-- The `while (curr != nullptr)` loop of `findEdge`: the position in the list of the
first node with `adjVertex == dest` (the returned pointer), `none` for `nullptr`. -/
def findEdgeLoop (dest : Int) : List EdgeNode → Option Nat
  | [] => none
  | curr :: nextEdge =>
    if curr.adjVertex = dest then some 0
    else (findEdgeLoop dest nextEdge).map Nat.succ

/-- `Graph::findEdge`. -/
def findEdge (g : Graph) (source dest : Int) : Option Nat :=
  if !g.isValidVertex source then none
  else if !g.isValidVertex dest then none
  else if g.edgeHead source = [] then none
  else findEdgeLoop dest (g.edgeHead source)

/-- The assignment `edge->weight = weight` through the pointer to the node at position `i`. -/
def setWeight (weight : Int) : List EdgeNode → Nat → List EdgeNode
  | [], _ => []
  | e :: rest, 0 => ⟨e.adjVertex, weight⟩ :: rest
  | e :: rest, i + 1 => e :: setWeight weight rest i

/-- `Graph::insertEdge`. -/
def insertEdge (g : Graph) (source dest weight : Int) : Graph :=
  if !g.isValidVertex source then g
  else if !g.isValidVertex dest then g
  else if weight < 0 then g
  else
    match g.findEdge source dest with
    | some i =>
      ⟨g.size, Function.update g.edgeHead source (setWeight weight (g.edgeHead source) i), g.T⟩
    | none =>
      ⟨g.size, Function.update g.edgeHead source (⟨dest, weight⟩ :: g.edgeHead source), g.T⟩

/-- The loop of `Graph::buildGraph` over the stream of `(source, dest, weight)` triples:
each is fed to `insertEdge`; reading stops at a triple whose source is `0` or at the end of
the input. -/
def buildLoop : List (Int × Int × Int) → Graph → Graph
  | [], g => g
  | (src, dest, weight) :: rest, g =>
    if src = 0 then g else buildLoop rest (g.insertEdge src dest weight)

/-- `Graph::buildGraph` on an input that holds the vertex count `size`, the labels and then
the triples. -/
def buildGraph (size : Int) (triples : List (Int × Int × Int)) : Graph :=
  buildLoop triples (empty size)

/-- The shape of a linked list in which a pointer may dangle: `freed` is a pointer to a
node on which `delete` has run. -/
inductive Link where
  | null
  | freed
  | node (adjVertex weight : Int) (nextEdge : Link)
deriving DecidableEq, Repr

/-- A well-formed linked list as a `Link`. -/
def Link.ofList : List EdgeNode → Link
  | [] => Link.null
  | e :: rest => Link.node e.adjVertex e.weight (Link.ofList rest)

/-- The nodes of a linked structure, when no deleted node is linked into it. -/
def Link.toList? : Link → Option (List EdgeNode)
  | Link.null => some []
  | Link.freed => none
  | Link.node a w next => (Link.toList? next).map (List.cons ⟨a, w⟩)

/-- What a call of `removeEdge` does: it faults on a null pointer, or it returns `value`
and leaves `edgeHead` as the list hanging off `vertices[source]`. -/
inductive RemoveResult where
  | nullDeref
  | returned (value : Bool) (edgeHead : Link)
deriving DecidableEq, Repr

/-- The `while (curr->nextEdge != nullptr)` loop of `removeEdge`; `curr` is a live node and
the argument list is what hangs off `curr->nextEdge`.  On a match the node is unlinked and
then `delete curr->nextEdge` runs on the node that follows it. -/
def removeEdgeLoop (dest : Int) : EdgeNode → List EdgeNode → Bool × Link
  | curr, [] => (false, Link.node curr.adjVertex curr.weight Link.null)
  | curr, next :: after =>
    if next.adjVertex = dest then
      (true, Link.node curr.adjVertex curr.weight
        (match after with
         | [] => Link.null
         | _ :: _ => Link.freed))
    else
      let r := removeEdgeLoop dest next after
      (r.1, Link.node curr.adjVertex curr.weight r.2)

/-- `Graph::removeEdge`.  `curr->adjVertex` is read before `curr` is compared with
`nullptr`; when the head matches, `curr->nextEdge->nextEdge` is read and the head node is
deleted while `vertices[source].edgeHead` still points to it. -/
def removeEdge (g : Graph) (source dest : Int) : RemoveResult :=
  if !g.isValidVertex source then RemoveResult.returned false (Link.ofList (g.edgeHead source))
  else if !g.isValidVertex dest then
    RemoveResult.returned false (Link.ofList (g.edgeHead source))
  else
    match g.edgeHead source with
    | [] => RemoveResult.nullDeref
    | curr :: rest =>
      if curr.adjVertex = dest then
        match rest with
        | [] => RemoveResult.nullDeref
        | _ :: _ => RemoveResult.returned true Link.freed
      else
        let r := removeEdgeLoop dest curr rest
        RemoveResult.returned r.1 r.2

/-- The list `l` without its first node whose destination is `dest`. -/
def eraseEdge (dest : Int) : List EdgeNode → List EdgeNode
  | [] => []
  | e :: rest => if e.adjVertex = dest then rest else e :: eraseEdge dest rest

/-- The graph after a call of `removeEdge` together with the returned value, when the call
returns and leaves a list without a deleted node in it: only `vertices[source].edgeHead` is
assigned through. -/
def removeEdgeGraph (g : Graph) (source dest : Int) : Option (Bool × Graph) :=
  match g.removeEdge source dest with
  | RemoveResult.nullDeref => none
  | RemoveResult.returned value edgeHead =>
    (Link.toList? edgeHead).map fun l =>
      (value, ⟨g.size, Function.update g.edgeHead source l, g.T⟩)

/-- A finite sequence of calls `insertEdge(source, dest, weight)` applied in order. -/
def insertEdges : List (Int × Int × Int) → Graph → Graph
  | [], g => g
  | (source, dest, weight) :: rest, g => insertEdges rest (g.insertEdge source dest weight)

/-! ## Shortest-path engine (Graph.cpp 379-474) -/

/-- The operations of `std::priority_queue<AdjacentVertex, vector<AdjacentVertex>,
CompareAdjacentVertex>` on the contents of the container: `push`, and `pop` for `top()`
followed by `pop()` (`none` on an empty queue, where `top()` is undefined). -/
structure PriorityQueue where
  push : List AdjacentVertex → AdjacentVertex → List AdjacentVertex
  pop : List AdjacentVertex → Option (AdjacentVertex × List AdjacentVertex)

/-- The contract of the priority queue under `CompareAdjacentVertex` (`source.dist >
dest.dist`): `push` adds the entry, `top()`/`pop()` take out an entry of least `dist` and
keep the others, and succeed on a non-empty queue. -/
structure PriorityQueue.Lawful (Q : PriorityQueue) : Prop where
  push_perm : ∀ q a, (Q.push q a).Perm (a :: q)
  pop_perm : ∀ q a r, Q.pop q = some (a, r) → q.Perm (a :: r)
  pop_min : ∀ q a r, Q.pop q = some (a, r) → ∀ b ∈ q, a.dist ≤ b.dist
  pop_some : ∀ q, q ≠ [] → ∃ a r, Q.pop q = some (a, r)

/-- Takes the first entry of least `dist` out of a list. -/
def popMin : List AdjacentVertex → Option (AdjacentVertex × List AdjacentVertex)
  | [] => none
  | a :: q =>
    match popMin q with
    | none => some (a, [])
    | some (b, r) => if a.dist ≤ b.dist then some (a, q) else some (b, a :: r)

/-- A lawful queue: entries in insertion order, `top()` the oldest entry of least `dist`. -/
def listPQ : PriorityQueue := ⟨fun q a => q ++ [a], popMin⟩

/-! ### A binary heap

The queue above pops the oldest of the entries of least `dist`.  The container behind
`std::priority_queue` is a binary heap in a vector; the definitions below follow the
algorithm of `std::push_heap` and `std::pop_heap` as written in libstdc++
(`bits/stl_heap.h`), library code outside the repository, so that the program can also be
run with the order in which such a heap yields equal distances. -/

/-- The loop of `__push_heap`: the hole moves up while its parent compares greater than
`value` under `CompareAdjacentVertex`, then `value` is stored in the hole. -/
def pushHeapLoop (value : AdjacentVertex) :
    Nat → List AdjacentVertex → Nat → List AdjacentVertex
  | 0, c, holeIndex => c.set holeIndex value
  | fuel + 1, c, holeIndex =>
    if holeIndex > 0 ∧ (c.getD ((holeIndex - 1) / 2) value).dist > value.dist then
      pushHeapLoop value fuel (c.set holeIndex (c.getD ((holeIndex - 1) / 2) value))
        ((holeIndex - 1) / 2)
    else c.set holeIndex value

/-- The first loop of `__adjust_heap` on a heap of `len` entries: the hole moves down to
the child that does not compare greater, until it has no two children.  Returns the vector,
the hole and `secondChild`. -/
def adjustHeapLoop (value : AdjacentVertex) (len : Nat) :
    Nat → List AdjacentVertex → Nat → Nat → List AdjacentVertex × Nat × Nat
  | 0, c, holeIndex, secondChild => (c, holeIndex, secondChild)
  | fuel + 1, c, holeIndex, secondChild =>
    if secondChild < (len - 1) / 2 then
      let right := 2 * (secondChild + 1)
      let child :=
        if (c.getD right value).dist > (c.getD (right - 1) value).dist then right - 1
        else right
      adjustHeapLoop value len fuel (c.set holeIndex (c.getD child value)) child child
    else (c, holeIndex, secondChild)

/-- The function `__adjust_heap(first, 0, len, value)`. -/
def adjustHeap (value : AdjacentVertex) (len : Nat) (c : List AdjacentVertex) :
    List AdjacentVertex :=
  let r := adjustHeapLoop value len len c 0 0
  if len % 2 = 0 ∧ r.2.2 = (len - 2) / 2 then
    let last := 2 * (r.2.2 + 1) - 1
    pushHeapLoop value len (r.1.set r.2.1 (r.1.getD last value)) last
  else pushHeapLoop value len r.1 r.2.1

/-- The queue `std::priority_queue` over a vector with libstdc++'s heap functions: `push`
is `push_back` and `push_heap`; `pop` returns `front()` and runs `pop_heap` and
`pop_back`. -/
def stdHeapPQ : PriorityQueue :=
  ⟨fun c a => pushHeapLoop a (c.length + 1) (c ++ [a]) c.length,
   fun c =>
    match c with
    | [] => none
    | top :: rest =>
      if rest = [] then some (top, [])
      else
        let value := (top :: rest).getLastD top
        some (top, (adjustHeap value rest.length
          ((top :: rest).set rest.length top)).take rest.length)⟩

/-- The values `1, ..., size` of a loop `for (int i = 1; i <= size; i++)`. -/
def vertexIds (size : Int) : List Int :=
  (List.range size.toNat).map fun (k : Nat) => (k : Int) + 1

/-- The double loop of `Graph::resetTable`, inner loop: entries `T[source][dest]`. -/
def resetRow (source : Int) : List Int → (Int → Int → Table) → (Int → Int → Table)
  | [], T => T
  | dest :: rest, T => resetRow source rest (setT T source dest ⟨false, INT_MAX, 0⟩)

/-- The double loop of `Graph::resetTable`, outer loop. -/
def resetRows (dests : List Int) : List Int → (Int → Int → Table) → (Int → Int → Table)
  | [], T => T
  | source :: rest, T => resetRows dests rest (resetRow source dests T)

/-- `Graph::resetTable`. -/
def resetTable (g : Graph) : Graph :=
  ⟨g.size, g.edgeHead, resetRows (vertexIds g.size) (vertexIds g.size) g.T⟩

/-- The loop `for (int dest = 1; dest <= size; dest++)` of `dijkstrasAlgo` that seeds the
queue with every vertex other than the source at distance `INT_MAX`. -/
def seedLoop (Q : PriorityQueue) (source : Int) :
    List Int → List AdjacentVertex → List AdjacentVertex
  | [], pq => pq
  | dest :: rest, pq =>
    if dest ≠ source then seedLoop Q source rest (Q.push pq ⟨dest, INT_MAX⟩)
    else seedLoop Q source rest pq

/-- The loop `while (v != nullptr)` of `dijkstrasAlgo` over the edges of the popped vertex
`minIndex`: relaxation of every unvisited neighbour `w`, with a push of the new entry. -/
def relaxLoop (Q : PriorityQueue) (source minIndex : Int) :
    List EdgeNode → (Int → Int → Table) → List AdjacentVertex →
      (Int → Int → Table) × List AdjacentVertex
  | [], T, pq => (T, pq)
  | v :: nextEdge, T, pq =>
    if (T source v.adjVertex).visited = false ∧
        (T source v.adjVertex).dist > addInt (T source minIndex).dist v.weight then
      let sum := addInt (T source minIndex).dist v.weight
      relaxLoop Q source minIndex nextEdge
        (setT T source v.adjVertex ⟨(T source v.adjVertex).visited, sum, minIndex⟩)
        (Q.push pq ⟨v.adjVertex, sum⟩)
    else relaxLoop Q source minIndex nextEdge T pq

/-- The loop `for (int i = 1; i < size; i++)` of `dijkstrasAlgo`, `n` iterations to go.
Each iteration pops one entry; an entry whose vertex is already visited uses the iteration
up.  `none` when `top()` is called on an empty queue. -/
def mainLoop (Q : PriorityQueue) (edgeHead : Int → List EdgeNode) (source : Int) :
    Nat → (Int → Int → Table) → List AdjacentVertex → Option (Int → Int → Table)
  | 0, T, _ => some T
  | n + 1, T, pq =>
    match Q.pop pq with
    | none => none
    | some (minVertex, rest) =>
      if (T source minVertex.vertexIndex).visited = false then
        let T1 := setT T source minVertex.vertexIndex
          ⟨true, (T source minVertex.vertexIndex).dist, (T source minVertex.vertexIndex).path⟩
        let r := relaxLoop Q source minVertex.vertexIndex (edgeHead minVertex.vertexIndex) T1 rest
        mainLoop Q edgeHead source n r.1 r.2
      else mainLoop Q edgeHead source n T rest

/-- The table at the start of `dijkstrasAlgo`: `T[source][source].dist = 0`. -/
def startTable (T : Int → Int → Table) (source : Int) : Int → Int → Table :=
  setT T source source ⟨(T source source).visited, 0, (T source source).path⟩

/-- The queue of `dijkstrasAlgo` before its main loop: the source at distance 0, then every
other vertex at `INT_MAX`. -/
def startQueue (Q : PriorityQueue) (size source : Int) : List AdjacentVertex :=
  seedLoop Q source (vertexIds size) (Q.push [] ⟨source, 0⟩)

/-- `Graph::dijkstrasAlgo` (the parameter `sourceVertex` is not read by the function). -/
def dijkstrasAlgo (Q : PriorityQueue) (g : Graph) (source : Int) : Option Graph :=
  (mainLoop Q g.edgeHead source (g.size - 1).toNat (startTable g.T source)
    (startQueue Q g.size source)).map fun T => ⟨g.size, g.edgeHead, T⟩

/-- The loop of `findShortestPath` over the vertices `i`: Dijkstra from every vertex whose
adjacency list is not empty. -/
def sourceLoop (Q : PriorityQueue) : List Int → Graph → Option Graph
  | [], g => some g
  | i :: rest, g =>
    if g.edgeHead i ≠ [] then (dijkstrasAlgo Q g i).bind (sourceLoop Q rest)
    else sourceLoop Q rest g

/-- `Graph::findShortestPath`. -/
def findShortestPath (Q : PriorityQueue) (g : Graph) : Option Graph :=
  sourceLoop Q (vertexIds g.size) (resetTable g)

/-! ## Path reconstruction (Graph.cpp 487-505, 600-617) -/

/-- What `printPath` writes to `cout`: a vertex number, or one of its two diagnostics. -/
inductive Printed where
  | vertex (v : Int)
  | invalidSource
  | invalidDestination
deriving DecidableEq, Repr

/-- `Graph::printPath`, with `fuel` bounding the depth of the recursion (`none`: the
recursion is deeper than `fuel`).  The recursive call receives `dest =
T[source][dest].path`, and it is this new value of `dest` that is printed after it. -/
def printPath (g : Graph) (source : Int) : Nat → Int → Option (List Printed)
  | 0, _ => none
  | fuel + 1, dest =>
    if !g.isValidVertex source then some [Printed.invalidSource]
    else if !g.isValidVertex dest then some [Printed.invalidDestination]
    else if g.edgeHead source ≠ [] then
      if dest = source then some []
      else
        (printPath g source fuel (g.T source dest).path).map
          fun out => out ++ [Printed.vertex (g.T source dest).path]
    else some []

/-- The path part of `Graph::display` and of a finite row of `displayAll`: the output of
`printPath(source, dest)` followed by `dest`. -/
def displayPath (g : Graph) (source : Int) (fuel : Nat) (dest : Int) : Option (List Printed) :=
  (printPath g source fuel dest).map fun out => out ++ [Printed.vertex dest]

/-- What a call of `printDestinations` does: it dereferences a null `data` pointer, or it
returns after printing the labels of these vertices (and diagnostics). -/
inductive DestinationsResult where
  | nullDeref
  | printed (out : List Printed)
deriving DecidableEq, Repr

/-- `Graph::printDestinations`, with `fuel` bounding the depth of the recursion.  It has
the guards and the recursive call of `printPath`; after the call it prints
`*vertices[dest].data` for the new value of `dest`.  `vertices[v].data` is allocated by
`buildGraph` for `v` in `1..size` and is null for every other `v`. -/
def printDestinations (g : Graph) (source : Int) : Nat → Int → Option DestinationsResult
  | 0, _ => none
  | fuel + 1, dest =>
    if !g.isValidVertex source then some (DestinationsResult.printed [Printed.invalidSource])
    else if !g.isValidVertex dest then
      some (DestinationsResult.printed [Printed.invalidDestination])
    else if g.edgeHead source ≠ [] then
      if dest = source then some (DestinationsResult.printed [])
      else
        match printDestinations g source fuel (g.T source dest).path with
        | none => none
        | some DestinationsResult.nullDeref => some DestinationsResult.nullDeref
        | some (DestinationsResult.printed out) =>
          if g.isValidVertex (g.T source dest).path then
            some (DestinationsResult.printed (out ++ [Printed.vertex (g.T source dest).path]))
          else some DestinationsResult.nullDeref
    else some (DestinationsResult.printed [])

/-- The predecessor walk that `printPath` and `printDestinations` follow: from `dest` along
`T[source][.].path` until the vertex is `source` or is not valid, where both functions
return.  The result is the vertex at which the walk stops and the number of steps taken;
`none` when the walk takes `fuel` steps or more. -/
def predEnd (g : Graph) (source : Int) : Nat → Int → Option (Int × Nat)
  | 0, _ => none
  | fuel + 1, dest =>
    if dest = source ∨ g.isValidVertex dest = false then some (dest, 0)
    else (predEnd g source fuel (g.T source dest).path).map fun r => (r.1, r.2 + 1)

/-! ## Paths of the graph, for stating what the engine should compute -/

/-- The weight of the edge `u -> v` of the graph (of the first such node), if there is one. -/
def edgeWeight (g : Graph) (u v : Int) : Option Int :=
  ((g.edgeHead u).find? fun e => e.adjVertex = v).map EdgeNode.weight

/-- The total weight of the walk that starts at `u` and visits the vertices `vs` in turn;
`none` when some step is not an edge of the graph. -/
def walkWeight (g : Graph) : Int → List Int → Option Int
  | _, [] => some 0
  | u, v :: vs =>
    match g.edgeWeight u v, walkWeight g v vs with
    | some w, some rest => some (w + rest)
    | _, _ => none

/-- The number of steps of the predecessor walk `dest, T[source][dest].path, ...` until it
reaches `source`; `none` when it leaves the valid vertices first or takes more than `fuel`
steps. -/
def predSteps (g : Graph) (source : Int) : Nat → Int → Option Nat
  | 0, _ => none
  | fuel + 1, dest =>
    if dest = source then some 0
    else if !g.isValidVertex dest then none
    else (predSteps g source fuel (g.T source dest).path).map Nat.succ

/-- The vertices of the predecessor walk `dest, T[source][dest].path, ...` up to and
including `source`; `none` when it leaves the valid vertices first or takes more than
`fuel` steps. -/
def predWalk (g : Graph) (source : Int) : Nat → Int → Option (List Int)
  | 0, _ => none
  | fuel + 1, dest =>
    if dest = source then some [source]
    else if !g.isValidVertex dest then none
    else (predWalk g source fuel (g.T source dest).path).map (List.cons dest)

/-- The number of vertices `d` in `1..size` with `visited` set in a row of the table. -/
def visitedCount (size : Int) (row : Int → Table) : Nat :=
  ((vertexIds size).filter fun d => (row d).visited).length

/-! ## All runs a lawful queue allows -/

/-- The entries of least `dist` of a queue: the candidates for `top()`. -/
def minEntries (pq : List AdjacentVertex) : List AdjacentVertex :=
  pq.filter fun a => pq.all fun b => decide (a.dist ≤ b.dist)

/-- The main loop of `dijkstrasAlgo` followed along every choice of `top()` among the
entries of least `dist`: `true` when the queue is never empty at a pop and the row of the
source satisfies `P` at the end of every such run. -/
def allRuns (edgeHead : Int → List EdgeNode) (source : Int) (P : (Int → Table) → Bool) :
    Nat → (Int → Int → Table) → List AdjacentVertex → Bool
  | 0, T, _ => P (T source)
  | n + 1, T, pq =>
    !pq.isEmpty && (minEntries pq).all fun minVertex =>
      if (T source minVertex.vertexIndex).visited = false then
        let T1 := setT T source minVertex.vertexIndex
          ⟨true, (T source minVertex.vertexIndex).dist, (T source minVertex.vertexIndex).path⟩
        let r := relaxLoop listPQ source minVertex.vertexIndex (edgeHead minVertex.vertexIndex)
          T1 (pq.erase minVertex)
        allRuns edgeHead source P n r.1 r.2
      else allRuns edgeHead source P n T (pq.erase minVertex)

/-- The runs of `dijkstrasAlgo` from `source` on the reset table, each checked with `P`. -/
def allRunsFrom (g : Graph) (source : Int) (P : (Int → Table) → Bool) : Bool :=
  allRuns g.edgeHead source P (g.size - 1).toNat (startTable (resetTable g).T source)
    (startQueue listPQ g.size source)

/-! ## The sums the engine evaluates -/

/-- The operands `(T[source][minIndex].dist, v->weight)` of the sums that the `while` loop
of `dijkstrasAlgo` evaluates, in order.  The sum of an edge is evaluated when
`T[source][w].visited == false` (otherwise `&&` skips it), and once more with the same
operands in the assignment when the test succeeds; the table then moves on as in
`relaxLoop`. -/
def relaxSums (source minIndex : Int) :
    List EdgeNode → (Int → Int → Table) → List (Int × Int)
  | [], _ => []
  | v :: nextEdge, T =>
    if (T source v.adjVertex).visited = false then
      ((T source minIndex).dist, v.weight) ::
        relaxSums source minIndex nextEdge (relaxLoop listPQ source minIndex [v] T []).1
    else relaxSums source minIndex nextEdge T

/-- The operands of all sums evaluated in `n` iterations of the main loop of
`dijkstrasAlgo`; the loop itself is `mainLoop`. -/
def mainLoopSums (Q : PriorityQueue) (edgeHead : Int → List EdgeNode) (source : Int) :
    Nat → (Int → Int → Table) → List AdjacentVertex → Option (List (Int × Int))
  | 0, _, _ => some []
  | n + 1, T, pq =>
    match Q.pop pq with
    | none => none
    | some (minVertex, rest) =>
      if (T source minVertex.vertexIndex).visited = false then
        let T1 := setT T source minVertex.vertexIndex
          ⟨true, (T source minVertex.vertexIndex).dist, (T source minVertex.vertexIndex).path⟩
        let r := relaxLoop Q source minVertex.vertexIndex (edgeHead minVertex.vertexIndex) T1 rest
        (mainLoopSums Q edgeHead source n r.1 r.2).map fun later =>
          relaxSums source minVertex.vertexIndex (edgeHead minVertex.vertexIndex) T1 ++ later
      else mainLoopSums Q edgeHead source n T rest

/-- The operands of all sums evaluated by one call of `dijkstrasAlgo`. -/
def dijkstraSums (Q : PriorityQueue) (g : Graph) (source : Int) : Option (List (Int × Int)) :=
  mainLoopSums Q g.edgeHead source (g.size - 1).toNat (startTable g.T source)
    (startQueue Q g.size source)

/-- The operands of all sums evaluated in the loop of `findShortestPath` over the
vertices. -/
def sourceLoopSums (Q : PriorityQueue) : List Int → Graph → Option (List (Int × Int))
  | [], _ => some []
  | i :: rest, g =>
    if g.edgeHead i ≠ [] then
      match dijkstraSums Q g i, dijkstrasAlgo Q g i with
      | some sums, some g1 => (sourceLoopSums Q rest g1).map fun later => sums ++ later
      | _, _ => none
    else sourceLoopSums Q rest g

/-- The operands of all sums `T[source][v].dist + weight` evaluated during one call of
`findShortestPath`. -/
def findShortestPathSums (Q : PriorityQueue) (g : Graph) : Option (List (Int × Int)) :=
  sourceLoopSums Q (vertexIds g.size) (resetTable g)

/-- The sums of the main loop followed along every choice of `top()` among the entries of
least `dist`, as `allRuns` does for the table: `true` when the queue is never empty at a pop
and the operands collected in every such run, after `sums`, satisfy `P`. -/
def allRunsSums (edgeHead : Int → List EdgeNode) (source : Int)
    (P : List (Int × Int) → Bool) :
    Nat → (Int → Int → Table) → List AdjacentVertex → List (Int × Int) → Bool
  | 0, _, _, sums => P sums
  | n + 1, T, pq, sums =>
    !pq.isEmpty && (minEntries pq).all fun minVertex =>
      if (T source minVertex.vertexIndex).visited = false then
        let T1 := setT T source minVertex.vertexIndex
          ⟨true, (T source minVertex.vertexIndex).dist, (T source minVertex.vertexIndex).path⟩
        let r := relaxLoop listPQ source minVertex.vertexIndex (edgeHead minVertex.vertexIndex)
          T1 (pq.erase minVertex)
        allRunsSums edgeHead source P n r.1 r.2
          (sums ++ relaxSums source minVertex.vertexIndex (edgeHead minVertex.vertexIndex) T1)
      else allRunsSums edgeHead source P n T (pq.erase minVertex) sums

/-- The sums of the runs of `dijkstrasAlgo` from `source` on the reset table, each run
checked with `P`. -/
def allRunsSumsFrom (g : Graph) (source : Int) (P : List (Int × Int) → Bool) : Bool :=
  allRunsSums g.edgeHead source P (g.size - 1).toNat (startTable (resetTable g).T source)
    (startQueue listPQ g.size source) []

/-! ## The size of the queue at each pop -/

/-- The number of entries in the queue at each call of `top()` in `n` iterations of the
main loop of `dijkstrasAlgo`, in order; the list ends early after a call on an empty
queue. -/
def popLengths (Q : PriorityQueue) (edgeHead : Int → List EdgeNode) (source : Int) :
    Nat → (Int → Int → Table) → List AdjacentVertex → List Nat
  | 0, _, _ => []
  | n + 1, T, pq =>
    pq.length ::
      match Q.pop pq with
      | none => []
      | some (minVertex, rest) =>
        if (T source minVertex.vertexIndex).visited = false then
          let T1 := setT T source minVertex.vertexIndex
            ⟨true, (T source minVertex.vertexIndex).dist, (T source minVertex.vertexIndex).path⟩
          let r := relaxLoop Q source minVertex.vertexIndex (edgeHead minVertex.vertexIndex)
            T1 rest
          popLengths Q edgeHead source n r.1 r.2
        else popLengths Q edgeHead source n T rest

/-! ## Predecessor links of a row -/

/-- Every predecessor link of a row `T[source][.]` is backed by an edge: for `w` in `1..N`
with `path = v != 0`, `v` is marked visited, the list of `v` holds an edge to `w`, and the
distance of `w` is the machine sum of the distance of `v` and the weight of that edge. -/
def Linked (edgeHead : Int → List EdgeNode) (N : Int) (row : Int → Table) : Prop :=
  ∀ w, 1 ≤ w → w ≤ N → (row w).path ≠ 0 →
    (row (row w).path).visited = true ∧
      ∃ e ∈ edgeHead (row w).path, e.adjVertex = w ∧
        (row w).dist = addInt (row (row w).path).dist e.weight

/-- The predecessor walk of a row from `d` stops, at `source` or outside `1..N`, within `k`
steps. -/
def EndsWithin (N source : Int) (row : Int → Table) : Nat → Int → Prop
  | 0, d => d = source ∨ ¬ (1 ≤ d ∧ d ≤ N)
  | k + 1, d => d = source ∨ ¬ (1 ≤ d ∧ d ≤ N) ∨ EndsWithin N source row k (row d).path

/-- Every predecessor recorded for a vertex in `1..N` is marked visited. -/
def PredVisited (N : Int) (row : Int → Table) : Prop :=
  ∀ w, 1 ≤ w → w ≤ N → (row w).path ≠ 0 → (row (row w).path).visited = true

/-- The predecessor walk from every visited vertex in `1..N` stops within `c` steps. -/
def VisitedEnd (N source : Int) (row : Int → Table) (c : Nat) : Prop :=
  ∀ v, 1 ≤ v → v ≤ N → (row v).visited = true → EndsWithin N source row c v

/-- Every predecessor recorded for a vertex in `1..N` is 0 or a vertex in `1..N`. -/
def PredInRange (N : Int) (row : Int → Table) : Prop :=
  ∀ w, 1 ≤ w → w ≤ N → (row w).path = 0 ∨ (1 ≤ (row w).path ∧ (row w).path ≤ N)

/-! ## Concrete graphs -/

/-- The three-vertex example of the specification: edges 1->2 (5), 2->3 (2), 1->3 (10). -/
def exampleGraph : Graph := buildGraph 3 [(1, 2, 5), (2, 3, 2), (1, 3, 10)]

/-- The example of the specification with a fourth vertex that has no edges. -/
def isolatedGraph : Graph := buildGraph 4 [(1, 2, 5), (2, 3, 2), (1, 3, 10)]

/-- Five vertices; from source 1 the entry `(3, 5)` goes stale when 3 is reached through 2
at distance 2, and popping it uses up the fourth and last iteration, so vertex 4 is never
visited and its edge to 5 is never relaxed. -/
def staleGraph : Graph :=
  buildGraph 5 [(1, 2, 1), (1, 3, 5), (2, 3, 1), (1, 4, 10), (1, 5, 20), (4, 5, 1)]

/-- Three vertices: the source 1 has only a loop 1->1 (4), and 2->3 (1), 3->2 (1) form an
island that 1 cannot reach.  After the source, the second iteration can only pop an entry
at distance `INT_MAX` of an unvisited vertex. -/
def islandGraph : Graph := buildGraph 3 [(1, 1, 4), (2, 3, 1), (3, 2, 1)]

/-- Four vertices: the source 1 has only a loop 1->1 (4), and 2->3 (1), 3->4 (1), 4->2 (1)
form a ring that 1 cannot reach.  The second iteration pops an unvisited ring vertex at
distance `INT_MAX`, the third pops its successor at the wrapped distance. -/
def ringGraph : Graph := buildGraph 4 [(1, 1, 4), (2, 3, 1), (3, 4, 1), (4, 2, 1)]

/-- Five vertices with the edges 1->2 (1), 1->3 (5), 1->4 (5), 2->3 (1), 4->5 (1), the edge
1->4 inserted before 1->3: the list of vertex 1 is 2, 3, 4.  From source 1 the stale entry
`(3, 5)` and the entry `(4, 5)` have the same distance at the fourth and last pop. -/
def tieGraphA : Graph := buildGraph 5 [(1, 4, 5), (1, 3, 5), (1, 2, 1), (2, 3, 1), (4, 5, 1)]

/-- The graph `tieGraphA` with the edge 1->3 inserted before 1->4: the list of vertex 1 is
2, 4, 3; all other lists are the same. -/
def tieGraphB : Graph := buildGraph 5 [(1, 3, 5), (1, 4, 5), (1, 2, 1), (2, 3, 1), (4, 5, 1)]

end Graph

namespace Graph

/-! ## The graph store -/

theorem isValidVertex_iff (g : Graph) (v : Int) :
    g.isValidVertex v = true ↔ 1 ≤ v ∧ v ≤ g.size := by
  unfold isValidVertex
  by_cases h : v ≥ 1 ∧ v ≤ g.size
  · simp [h]
  · simp [h]

theorem findEdgeLoop_eq_none (dest : Int) (l : List EdgeNode) :
    findEdgeLoop dest l = none ↔ ∀ e ∈ l, e.adjVertex ≠ dest := by
  induction l with
  | nil => simp [findEdgeLoop]
  | cons a l ih =>
    by_cases h : a.adjVertex = dest
    · simp [findEdgeLoop, h]
    · simp [findEdgeLoop, h, ih]

theorem findEdge_eq_loop (g : Graph) (source dest : Int)
    (hs : g.isValidVertex source = true) (hd : g.isValidVertex dest = true) :
    g.findEdge source dest = findEdgeLoop dest (g.edgeHead source) := by
  unfold findEdge
  simp only [hs, hd, Bool.not_true, Bool.false_eq_true, if_false]
  by_cases h : g.edgeHead source = []
  · simp [h, findEdgeLoop]
  · simp [h]

theorem countP_setWeight (dest w : Int) (l : List EdgeNode) (i : Nat) :
    (setWeight w l i).countP (fun e => e.adjVertex = dest) =
      l.countP (fun e => e.adjVertex = dest) := by
  induction l generalizing i with
  | nil => simp [setWeight]
  | cons a l ih =>
    cases i with
    | zero => simp [setWeight, List.countP_cons]
    | succ i => simp [setWeight, List.countP_cons, ih]

theorem weight_of_setWeight (dest w : Int) (l : List EdgeNode) (i : Nat)
    (hf : findEdgeLoop dest l = some i)
    (hc : l.countP (fun e => e.adjVertex = dest) ≤ 1) :
    ∀ e ∈ setWeight w l i, e.adjVertex = dest → e.weight = w := by
  induction l generalizing i with
  | nil => simp [findEdgeLoop] at hf
  | cons a l ih =>
    by_cases h : a.adjVertex = dest
    · simp [findEdgeLoop, h] at hf
      subst hf
      simp only [List.countP_cons, h, decide_True, if_true] at hc
      have h0 : l.countP (fun e => e.adjVertex = dest) = 0 := by omega
      rw [List.countP_eq_zero] at h0
      intro e he hed
      simp only [setWeight, List.mem_cons] at he
      rcases he with rfl | he
      · rfl
      · exact absurd (by simpa using hed) (h0 e he)
    · simp only [findEdgeLoop, h, if_false, Option.map_eq_some'] at hf
      obtain ⟨j, hj, rfl⟩ := hf
      simp only [List.countP_cons, h, decide_False, Bool.false_eq_true, if_false,
        Nat.add_zero] at hc
      intro e he hed
      simp only [setWeight, List.mem_cons] at he
      rcases he with rfl | he
      · exact absurd hed h
      · exact ih j hj hc e he hed

theorem insertEdge_size (g : Graph) (s d w : Int) : (g.insertEdge s d w).size = g.size := by
  unfold insertEdge
  split_ifs <;> try rfl
  split <;> rfl

theorem insertEdge_T (g : Graph) (s d w : Int) : (g.insertEdge s d w).T = g.T := by
  unfold insertEdge
  split_ifs <;> try rfl
  split <;> rfl

theorem insertEdge_isValidVertex (g : Graph) (s d w v : Int) :
    (g.insertEdge s d w).isValidVertex v = g.isValidVertex v := by
  simp [isValidVertex, insertEdge_size]

/-- The adjacency list of `source` after a call of `insertEdge` that passes the three
checks. -/
theorem insertEdge_edgeHead_valid (g : Graph) (s d w : Int)
    (hs : g.isValidVertex s = true) (hd : g.isValidVertex d = true) (hw : 0 ≤ w) :
    (g.insertEdge s d w).edgeHead s =
      match findEdgeLoop d (g.edgeHead s) with
      | some i => setWeight w (g.edgeHead s) i
      | none => ⟨d, w⟩ :: g.edgeHead s := by
  unfold insertEdge
  rw [findEdge_eq_loop g s d hs hd]
  simp only [hs, hd, Bool.not_true, Bool.false_eq_true, if_false, not_lt.mpr hw]
  cases findEdgeLoop d (g.edgeHead s) <;> simp

/-- Claim C7: when the adjacency list of a valid `s` holds at most one edge to a valid `d`
(the invariant of the store), two calls `insertEdge(s, d, w1)`, `insertEdge(s, d, w2)` with
weights `>= 0` leave exactly one edge to `d` in the list of `s`, and its weight is `w2`. -/
theorem C7_insertEdge_twice_one_edge_second_weight (g : Graph) (s d w1 w2 : Int)
    (hs : g.isValidVertex s = true) (hd : g.isValidVertex d = true)
    (h1 : 0 ≤ w1) (h2 : 0 ≤ w2)
    (hinv : (g.edgeHead s).countP (fun e => e.adjVertex = d) ≤ 1) :
    (((g.insertEdge s d w1).insertEdge s d w2).edgeHead s).countP
        (fun e => e.adjVertex = d) = 1 ∧
      ∀ e ∈ ((g.insertEdge s d w1).insertEdge s d w2).edgeHead s,
        e.adjVertex = d → e.weight = w2 := by
  have hs1 : (g.insertEdge s d w1).isValidVertex s = true := by
    rw [insertEdge_isValidVertex]; exact hs
  have hd1 : (g.insertEdge s d w1).isValidVertex d = true := by
    rw [insertEdge_isValidVertex]; exact hd
  -- after the first call there is exactly one edge to `d`
  have hc1 : ((g.insertEdge s d w1).edgeHead s).countP (fun e => e.adjVertex = d) = 1 := by
    rw [insertEdge_edgeHead_valid g s d w1 hs hd h1]
    cases hf : findEdgeLoop d (g.edgeHead s) with
    | none =>
      have h0 := (findEdgeLoop_eq_none d _).mp hf
      have : (g.edgeHead s).countP (fun e => e.adjVertex = d) = 0 := by
        rw [List.countP_eq_zero]
        intro e he
        simpa using h0 e he
      simp [List.countP_cons, this]
    | some i =>
      simp only [countP_setWeight]
      have hpos : 0 < (g.edgeHead s).countP (fun e => e.adjVertex = d) := by
        by_contra hneg
        have h0 : (g.edgeHead s).countP (fun e => e.adjVertex = d) = 0 := by omega
        rw [List.countP_eq_zero] at h0
        have : findEdgeLoop d (g.edgeHead s) = none :=
          (findEdgeLoop_eq_none d _).mpr (fun e he => by simpa using h0 e he)
        rw [this] at hf
        exact Option.noConfusion hf
      omega
  rw [insertEdge_edgeHead_valid _ s d w2 hs1 hd1 h2]
  cases hf : findEdgeLoop d ((g.insertEdge s d w1).edgeHead s) with
  | none =>
    exfalso
    have h0 := (findEdgeLoop_eq_none d _).mp hf
    have : ((g.insertEdge s d w1).edgeHead s).countP (fun e => e.adjVertex = d) = 0 := by
      rw [List.countP_eq_zero]
      intro e he
      simpa using h0 e he
    omega
  | some j =>
    refine ⟨?_, ?_⟩
    · simp only [countP_setWeight]
      exact hc1
    · exact weight_of_setWeight d w2 _ j hf (le_of_eq hc1)

/-- The statement of C7 on the graph with the single edge 1->2 (5): inserting 1->2 with
weights 7 and then 9 leaves one edge to 2, of weight 9. -/
theorem C7_insertEdge_twice_witness :
    (((((buildGraph 3 [(1, 2, 5)]).insertEdge 1 2 7).insertEdge 1 2 9).edgeHead 1).countP
        (fun e => e.adjVertex = 2) = 1 ∧
      ∀ e ∈ (((buildGraph 3 [(1, 2, 5)]).insertEdge 1 2 7).insertEdge 1 2 9).edgeHead 1,
        e.adjVertex = 2 → e.weight = 9) :=
  C7_insertEdge_twice_one_edge_second_weight (buildGraph 3 [(1, 2, 5)]) 1 2 7 9
    (by decide) (by decide) (by decide) (by decide) (by decide)

/-- Claim C8: when a valid `s` has no edge to a valid `d` and `w >= 0`, after
`insertEdge(s, d, w)` the adjacency list of `s` is the new node `(d, w)` followed by the
previous list, unchanged. -/
theorem C8_insertEdge_new_edge_is_prepended (g : Graph) (s d w : Int)
    (hs : g.isValidVertex s = true) (hd : g.isValidVertex d = true) (hw : 0 ≤ w)
    (hnew : ∀ e ∈ g.edgeHead s, e.adjVertex ≠ d) :
    (g.insertEdge s d w).edgeHead s = ⟨d, w⟩ :: g.edgeHead s := by
  rw [insertEdge_edgeHead_valid g s d w hs hd hw, (findEdgeLoop_eq_none d _).mpr hnew]

/-- The statement of C8 on the example graph's vertex 2, which has no edge to 1. -/
theorem C8_insertEdge_new_edge_witness :
    (exampleGraph.insertEdge 2 1 4).edgeHead 2 = ⟨1, 4⟩ :: exampleGraph.edgeHead 2 :=
  C8_insertEdge_new_edge_is_prepended exampleGraph 2 1 4 (by decide) (by decide) (by decide)
    (by decide)

/-- Claim C9: a call of `insertEdge` whose source is outside `[1, size]`, or whose
destination is, or whose weight is negative, returns the graph as it was: adjacency lists,
vertex count and table. -/
theorem C9_insertEdge_invalid_is_noop (g : Graph) (s d w : Int)
    (h : g.isValidVertex s = false ∨ g.isValidVertex d = false ∨ w < 0) :
    g.insertEdge s d w = g := by
  unfold insertEdge
  rcases h with h | h | h
  · simp [h]
  · simp [h]
  · simp [h]

/-- The statement of C9 on the example graph: a negative weight on valid vertices. -/
theorem C9_insertEdge_invalid_witness : exampleGraph.insertEdge 1 2 (-1) = exampleGraph :=
  C9_insertEdge_invalid_is_noop exampleGraph 1 2 (-1) (Or.inr (Or.inr (by decide)))

/-- Claim C10, the program at inputs where the edge exists.  The only edge of a list
(1->2 in a one-edge list): `removeEdge` reads `curr->nextEdge->nextEdge` through a null
`nextEdge`.  The head of a longer list: it returns true and `edgeHead` points to the deleted
head.  A middle node: it returns true, and the node after the removed one is deleted while
still linked.  Only a match on the last node of a list of two or more leaves the list the
claim describes. -/
theorem C10_removeEdge_existing_edge_faults :
    removeEdge (buildGraph 2 [(1, 2, 7)]) 1 2 = RemoveResult.nullDeref ∧
    removeEdge (buildGraph 2 [(1, 1, 3), (1, 2, 7)]) 1 2 = RemoveResult.returned true Link.freed ∧
    removeEdge (buildGraph 3 [(1, 1, 3), (1, 2, 7), (1, 3, 4)]) 1 2 =
      RemoveResult.returned true (Link.node 3 4 Link.freed) ∧
    removeEdge (buildGraph 3 [(1, 1, 3), (1, 2, 7), (1, 3, 4)]) 1 1 =
      RemoveResult.returned true (Link.ofList
        (eraseEdge 1 ((buildGraph 3 [(1, 1, 3), (1, 2, 7), (1, 3, 4)]).edgeHead 1))) := by
  decide

/-! ## The list queue is lawful -/

theorem popMin_perm (q : List AdjacentVertex) :
    ∀ a r, popMin q = some (a, r) → q.Perm (a :: r) := by
  induction q with
  | nil => intro a r h; simp [popMin] at h
  | cons x q ih =>
    intro a r h
    unfold popMin at h
    cases hq : popMin q with
    | none =>
      rw [hq] at h
      cases q with
      | nil =>
        simp only [Option.some.injEq, Prod.mk.injEq] at h
        obtain ⟨rfl, rfl⟩ := h
        exact List.Perm.refl _
      | cons y q =>
        exfalso
        unfold popMin at hq
        cases hq2 : popMin q with
        | none => rw [hq2] at hq; simp at hq
        | some p =>
          obtain ⟨b, t⟩ := p
          rw [hq2] at hq
          simp only at hq
          split_ifs at hq
    | some p =>
      obtain ⟨b, t⟩ := p
      rw [hq] at h
      simp only at h
      split_ifs at h with hle
      · simp only [Option.some.injEq, Prod.mk.injEq] at h
        obtain ⟨rfl, rfl⟩ := h
        exact List.Perm.refl _
      · simp only [Option.some.injEq, Prod.mk.injEq] at h
        obtain ⟨rfl, rfl⟩ := h
        exact ((ih b t hq).cons x).trans (List.Perm.swap b x t)

theorem popMin_some (q : List AdjacentVertex) (h : q ≠ []) : ∃ a r, popMin q = some (a, r) := by
  cases q with
  | nil => exact absurd rfl h
  | cons x q =>
    unfold popMin
    cases popMin q with
    | none => exact ⟨x, [], rfl⟩
    | some p =>
      obtain ⟨b, t⟩ := p
      by_cases hle : x.dist ≤ b.dist
      · exact ⟨x, q, by simp [hle]⟩
      · exact ⟨b, x :: t, by simp [hle]⟩

theorem popMin_min (q : List AdjacentVertex) :
    ∀ a r, popMin q = some (a, r) → ∀ b ∈ q, a.dist ≤ b.dist := by
  induction q with
  | nil => intro a r h; simp [popMin] at h
  | cons x q ih =>
    intro a r h c hc
    unfold popMin at h
    cases hq : popMin q with
    | none =>
      rw [hq] at h
      simp only [Option.some.injEq, Prod.mk.injEq] at h
      obtain ⟨rfl, rfl⟩ := h
      have hnil : q = [] := by
        by_contra hne
        obtain ⟨a', r', h'⟩ := popMin_some q hne
        rw [h'] at hq
        exact Option.noConfusion hq
      subst hnil
      simp only [List.mem_singleton] at hc
      subst hc
      exact le_refl _
    | some p =>
      obtain ⟨b, t⟩ := p
      rw [hq] at h
      simp only at h
      have hb := ih b t hq
      rcases List.mem_cons.mp hc with rfl | hcq
      · split_ifs at h with hle
        · simp only [Option.some.injEq, Prod.mk.injEq] at h
          obtain ⟨rfl, rfl⟩ := h
          exact le_refl _
        · simp only [Option.some.injEq, Prod.mk.injEq] at h
          obtain ⟨rfl, rfl⟩ := h
          exact le_of_lt (not_le.mp hle)
      · split_ifs at h with hle
        · simp only [Option.some.injEq, Prod.mk.injEq] at h
          obtain ⟨rfl, rfl⟩ := h
          exact le_trans hle (hb c hcq)
        · simp only [Option.some.injEq, Prod.mk.injEq] at h
          obtain ⟨rfl, rfl⟩ := h
          exact hb c hcq

theorem listPQ_lawful : listPQ.Lawful where
  push_perm := fun q a => by
    show (q ++ [a]).Perm (a :: q)
    exact List.perm_append_singleton a q
  pop_perm := fun q a r h => popMin_perm q a r h
  pop_min := fun q a r h => popMin_min q a r h
  pop_some := fun q h => popMin_some q h

/-! ## Path reconstruction -/

/-- Claim C3 as stated fails on the example of the specification: for the pair 1 -> 3 the
program prints `1 2` in `printPath` and then `3`, so the sequence is `[1, 2, 3]` with the
source in it, not `[2, 3]`. -/
theorem C3_example_path_includes_source :
    ((findShortestPath listPQ exampleGraph).bind fun g => displayPath g 1 3 3) =
        some [Printed.vertex 1, Printed.vertex 2, Printed.vertex 3] ∧
    ((findShortestPath listPQ exampleGraph).bind fun g => displayPath g 1 3 3) ≠
        some [Printed.vertex 2, Printed.vertex 3] := by
  decide

theorem predWalk_head (g : Graph) (source : Int) :
    ∀ (fuel : Nat) (dest : Int) (walk : List Int),
      predWalk g source fuel dest = some walk → ∃ rest, walk = dest :: rest := by
  intro fuel dest walk h
  cases fuel with
  | zero => simp [predWalk] at h
  | succ fuel =>
    unfold predWalk at h
    split_ifs at h with h1 h2
    · simp only [Option.some.injEq] at h
      exact ⟨[], by rw [← h, h1]⟩
    · simp only [Option.map_eq_some'] at h
      obtain ⟨w, _, rfl⟩ := h
      exact ⟨w, rfl⟩

theorem predWalk_getLast (g : Graph) (source : Int) :
    ∀ (fuel : Nat) (dest : Int) (walk : List Int),
      predWalk g source fuel dest = some walk → walk.getLast? = some source := by
  intro fuel
  induction fuel with
  | zero => intro dest walk h; simp [predWalk] at h
  | succ fuel ih =>
    intro dest walk h
    unfold predWalk at h
    split_ifs at h with h1 h2
    · simp only [Option.some.injEq] at h
      subst h
      rfl
    · simp only [Option.map_eq_some'] at h
      obtain ⟨w, hw, rfl⟩ := h
      obtain ⟨rest, hrest⟩ := predWalk_head g source fuel _ w hw
      have := ih _ w hw
      rw [hrest] at this ⊢
      simpa [List.getLast?_cons_cons] using this

theorem printPath_of_predWalk (g : Graph) (source : Int)
    (hs : g.isValidVertex source = true) (hne : g.edgeHead source ≠ []) :
    ∀ (fuel : Nat) (dest : Int) (walk : List Int),
      predWalk g source fuel dest = some walk →
      printPath g source fuel dest = some ((walk.drop 1).reverse.map Printed.vertex) := by
  intro fuel
  induction fuel with
  | zero => intro dest walk h; simp [predWalk] at h
  | succ fuel ih =>
    intro dest walk h
    unfold predWalk at h
    unfold printPath
    split_ifs at h with h1 h2
    · simp only [Option.some.injEq] at h
      subst h
      simp [hs, h1, hne]
    · simp only [Option.map_eq_some'] at h
      obtain ⟨w, hw, rfl⟩ := h
      have hd : g.isValidVertex dest = true := by simpa using h2
      obtain ⟨rest, hrest⟩ := predWalk_head g source fuel _ w hw
      rw [ih _ w hw]
      subst hrest
      simp [hs, hd, hne, h1]

/-- Claim C3, amended: for every table and every pair of a valid source with a non-empty
adjacency list and a destination whose predecessor walk `dest, T[source][dest].path, ...`
reaches the source through valid vertices, the output of `printPath(source, dest)` followed
by `dest` is that walk in source-to-dest order, beginning with the source and ending with
the destination. -/
theorem C3_printed_path_is_reversed_predecessor_walk (g : Graph) (source dest : Int)
    (fuel : Nat) (walk : List Int)
    (hs : g.isValidVertex source = true) (hne : g.edgeHead source ≠ [])
    (hwalk : predWalk g source fuel dest = some walk) :
    displayPath g source fuel dest = some (walk.reverse.map Printed.vertex) ∧
      walk.reverse.head? = some source ∧ walk.reverse.getLast? = some dest := by
  obtain ⟨rest, hrest⟩ := predWalk_head g source fuel dest walk hwalk
  have hlast := predWalk_getLast g source fuel dest walk hwalk
  refine ⟨?_, ?_, ?_⟩
  · unfold displayPath
    rw [printPath_of_predWalk g source hs hne fuel dest walk hwalk, hrest]
    simp
  · rw [List.head?_reverse]
    exact hlast
  · rw [List.getLast?_reverse, hrest]
    rfl

/-- The statement of C3 on the table computed for the example graph, pair 1 -> 3. -/
theorem C3_printed_path_witness :
    displayPath ((findShortestPath listPQ exampleGraph).getD exampleGraph) 1 3 3 =
        some (([3, 2, 1] : List Int).reverse.map Printed.vertex) ∧
      ([3, 2, 1] : List Int).reverse.head? = some 1 ∧
      ([3, 2, 1] : List Int).reverse.getLast? = some 3 :=
  C3_printed_path_is_reversed_predecessor_walk
    ((findShortestPath listPQ exampleGraph).getD exampleGraph) 1 3 3 [3, 2, 1]
    (by decide) (by decide) (by decide)

/-! ## Frame and progress of the engine -/

theorem setT_row (T : Int → Int → Table) (s d : Int) (e : Table) (i j : Int) (h : i ≠ s) :
    setT T s d e i j = T i j := by
  simp [setT, h]

theorem setT_same (T : Int → Int → Table) (s d : Int) (e : Table) : setT T s d e s d = e := by
  simp [setT]

theorem setT_col (T : Int → Int → Table) (s d : Int) (e : Table) (i j : Int) (h : j ≠ d) :
    setT T s d e i j = T i j := by
  simp [setT, h]

theorem relaxLoop_row (Q : PriorityQueue) (source minIndex : Int) :
    ∀ (edges : List EdgeNode) (T : Int → Int → Table) (pq : List AdjacentVertex) (i j : Int),
      i ≠ source → (relaxLoop Q source minIndex edges T pq).1 i j = T i j := by
  intro edges
  induction edges with
  | nil => intro T pq i j _; rfl
  | cons v rest ih =>
    intro T pq i j hi
    unfold relaxLoop
    split_ifs
    · simp only
      rw [ih _ _ i j hi, setT_row _ _ _ _ _ _ hi]
    · exact ih T pq i j hi

theorem relaxLoop_length (Q : PriorityQueue) (hQ : Q.Lawful) (source minIndex : Int) :
    ∀ (edges : List EdgeNode) (T : Int → Int → Table) (pq : List AdjacentVertex),
      pq.length ≤ (relaxLoop Q source minIndex edges T pq).2.length := by
  intro edges
  induction edges with
  | nil => intro T pq; exact le_refl _
  | cons v rest ih =>
    intro T pq
    unfold relaxLoop
    split_ifs
    · simp only
      refine le_trans ?_ (ih _ _)
      rw [(hQ.push_perm pq _).length_eq]
      simp
    · exact ih T pq

theorem mainLoop_row (Q : PriorityQueue) (edgeHead : Int → List EdgeNode) (source : Int) :
    ∀ (n : Nat) (T : Int → Int → Table) (pq : List AdjacentVertex) (T' : Int → Int → Table),
      mainLoop Q edgeHead source n T pq = some T' →
      ∀ i j, i ≠ source → T' i j = T i j := by
  intro n
  induction n with
  | zero =>
    intro T pq T' h i j _
    simp only [mainLoop, Option.some.injEq] at h
    rw [h]
  | succ n ih =>
    intro T pq T' h i j hi
    unfold mainLoop at h
    cases hpop : Q.pop pq with
    | none => rw [hpop] at h; exact Option.noConfusion h
    | some p =>
      obtain ⟨a, r⟩ := p
      rw [hpop] at h
      simp only at h
      split_ifs at h
      · rw [ih _ _ T' h i j hi, relaxLoop_row Q source _ _ _ _ i j hi,
          setT_row _ _ _ _ _ _ hi]
      · exact ih _ _ T' h i j hi

theorem mainLoop_some (Q : PriorityQueue) (hQ : Q.Lawful) (edgeHead : Int → List EdgeNode)
    (source : Int) :
    ∀ (n : Nat) (T : Int → Int → Table) (pq : List AdjacentVertex),
      n ≤ pq.length → ∃ T', mainLoop Q edgeHead source n T pq = some T' := by
  intro n
  induction n with
  | zero => intro T pq _; exact ⟨T, rfl⟩
  | succ n ih =>
    intro T pq hlen
    have hne : pq ≠ [] := by
      intro h
      rw [h] at hlen
      simp at hlen
    obtain ⟨a, r, hpop⟩ := hQ.pop_some pq hne
    have hr : n ≤ r.length := by
      have := (hQ.pop_perm pq a r hpop).length_eq
      simp only [List.length_cons] at this
      omega
    unfold mainLoop
    rw [hpop]
    simp only
    split_ifs
    · exact ih _ _ (le_trans hr (relaxLoop_length Q hQ source _ _ _ _))
    · exact ih _ _ hr

theorem mem_vertexIds (n v : Int) : v ∈ vertexIds n ↔ 1 ≤ v ∧ v ≤ n := by
  unfold vertexIds
  simp only [List.mem_map, List.mem_range]
  constructor
  · rintro ⟨k, hk, rfl⟩
    omega
  · rintro ⟨h1, h2⟩
    exact ⟨(v - 1).toNat, by omega, by omega⟩

theorem vertexIds_nodup (n : Int) : (vertexIds n).Nodup := by
  unfold vertexIds
  refine (List.nodup_range _).map ?_
  intro a b h
  simpa using h

theorem vertexIds_length (n : Int) : (vertexIds n).length = n.toNat := by
  simp [vertexIds]

theorem seedLoop_length_of_not_mem (Q : PriorityQueue) (hQ : Q.Lawful) (source : Int) :
    ∀ (l : List Int) (pq : List AdjacentVertex), source ∉ l →
      (seedLoop Q source l pq).length = pq.length + l.length := by
  intro l
  induction l with
  | nil => intro pq _; simp [seedLoop]
  | cons d rest ih =>
    intro pq h
    have hd : d ≠ source := fun e => h (by simp [e])
    have hrest : source ∉ rest := fun e => h (List.mem_cons_of_mem _ e)
    simp only [seedLoop, hd, ne_eq, not_false_eq_true, if_true]
    rw [ih _ hrest, (hQ.push_perm pq _).length_eq]
    simp only [List.length_cons]
    omega

theorem seedLoop_length_of_nodup (Q : PriorityQueue) (hQ : Q.Lawful) (source : Int) :
    ∀ (l : List Int) (pq : List AdjacentVertex), l.Nodup →
      pq.length + l.length ≤ (seedLoop Q source l pq).length + 1 := by
  intro l
  induction l with
  | nil => intro pq _; simp [seedLoop]
  | cons d rest ih =>
    intro pq h
    obtain ⟨hd, hrest⟩ := List.nodup_cons.mp h
    by_cases hds : d = source
    · subst hds
      simp only [seedLoop, ne_eq, not_true_eq_false, if_false]
      rw [seedLoop_length_of_not_mem Q hQ d rest pq hd]
      simp only [List.length_cons]
      omega
    · simp only [seedLoop, hds, ne_eq, not_false_eq_true, if_true]
      have := ih (Q.push pq ⟨d, INT_MAX⟩) hrest
      rw [(hQ.push_perm pq _).length_eq] at this
      simp only [List.length_cons] at this ⊢
      omega

theorem seedLoop_mem (Q : PriorityQueue) (hQ : Q.Lawful) (source : Int) :
    ∀ (l : List Int) (pq : List AdjacentVertex) (b : AdjacentVertex),
      b ∈ seedLoop Q source l pq → b ∈ pq ∨ (b.dist = INT_MAX ∧ b.vertexIndex ∈ l) := by
  intro l
  induction l with
  | nil => intro pq b h; exact Or.inl h
  | cons d rest ih =>
    intro pq b h
    unfold seedLoop at h
    split_ifs at h
    · rcases ih _ b h with h1 | ⟨h1, h2⟩
      · rcases List.mem_cons.mp ((hQ.push_perm pq _).mem_iff.mp h1) with rfl | h3
        · exact Or.inr ⟨rfl, by simp⟩
        · exact Or.inl h3
      · exact Or.inr ⟨h1, List.mem_cons_of_mem _ h2⟩
    · rcases ih _ b h with h1 | ⟨h1, h2⟩
      · exact Or.inl h1
      · exact Or.inr ⟨h1, List.mem_cons_of_mem _ h2⟩

theorem mem_seedLoop_of_mem (Q : PriorityQueue) (hQ : Q.Lawful) (source : Int) :
    ∀ (l : List Int) (pq : List AdjacentVertex) (b : AdjacentVertex),
      b ∈ pq → b ∈ seedLoop Q source l pq := by
  intro l
  induction l with
  | nil => intro pq b h; exact h
  | cons d rest ih =>
    intro pq b h
    unfold seedLoop
    split_ifs
    · exact ih _ b ((hQ.push_perm pq _).mem_iff.mpr (List.mem_cons_of_mem _ h))
    · exact ih _ b h

theorem startQueue_mem (Q : PriorityQueue) (hQ : Q.Lawful) (size source : Int)
    (b : AdjacentVertex) (h : b ∈ startQueue Q size source) :
    b = ⟨source, 0⟩ ∨ (b.dist = INT_MAX ∧ 1 ≤ b.vertexIndex ∧ b.vertexIndex ≤ size) := by
  rcases seedLoop_mem Q hQ source _ _ b h with h1 | ⟨h1, h2⟩
  · have := (hQ.push_perm [] _).mem_iff.mp h1
    simp only [List.mem_singleton] at this
    exact Or.inl this
  · exact Or.inr ⟨h1, (mem_vertexIds _ _).mp h2⟩

theorem source_mem_startQueue (Q : PriorityQueue) (hQ : Q.Lawful) (size source : Int) :
    (⟨source, 0⟩ : AdjacentVertex) ∈ startQueue Q size source :=
  mem_seedLoop_of_mem Q hQ source _ _ _ ((hQ.push_perm [] _).mem_iff.mpr (by simp))

theorem startQueue_length (Q : PriorityQueue) (hQ : Q.Lawful) (size source : Int) :
    (size - 1).toNat ≤ (startQueue Q size source).length := by
  have h := seedLoop_length_of_nodup Q hQ source (vertexIds size)
    (Q.push [] ⟨source, 0⟩) (vertexIds_nodup size)
  rw [(hQ.push_perm [] _).length_eq, vertexIds_length] at h
  simp only [List.length_singleton] at h
  unfold startQueue
  omega

/-- With a lawful queue `dijkstrasAlgo` never calls `top()` on an empty queue. -/
theorem dijkstrasAlgo_some (Q : PriorityQueue) (hQ : Q.Lawful) (g : Graph) (source : Int) :
    ∃ T', mainLoop Q g.edgeHead source (g.size - 1).toNat (startTable g.T source)
        (startQueue Q g.size source) = some T' ∧
      dijkstrasAlgo Q g source = some ⟨g.size, g.edgeHead, T'⟩ := by
  obtain ⟨T', hT'⟩ := mainLoop_some Q hQ g.edgeHead source (g.size - 1).toNat
    (startTable g.T source) (startQueue Q g.size source) (startQueue_length Q hQ _ _)
  exact ⟨T', hT', by simp only [dijkstrasAlgo, hT', Option.map_some']⟩

theorem dijkstrasAlgo_inv (Q : PriorityQueue) (g g' : Graph) (source : Int)
    (h : dijkstrasAlgo Q g source = some g') :
    g'.size = g.size ∧ g'.edgeHead = g.edgeHead ∧
      mainLoop Q g.edgeHead source (g.size - 1).toNat (startTable g.T source)
        (startQueue Q g.size source) = some g'.T := by
  unfold dijkstrasAlgo at h
  simp only [Option.map_eq_some'] at h
  obtain ⟨T', hT', rfl⟩ := h
  exact ⟨rfl, rfl, hT'⟩

theorem sourceLoop_some (Q : PriorityQueue) (hQ : Q.Lawful) :
    ∀ (l : List Int) (g : Graph), ∃ g', sourceLoop Q l g = some g' := by
  intro l
  induction l with
  | nil => intro g; exact ⟨g, rfl⟩
  | cons i rest ih =>
    intro g
    unfold sourceLoop
    split_ifs
    · obtain ⟨T', _, h2⟩ := dijkstrasAlgo_some Q hQ g i
      rw [h2]
      exact ih _
    · exact ih g

theorem sourceLoop_inv (Q : PriorityQueue) :
    ∀ (l : List Int) (g g' : Graph), sourceLoop Q l g = some g' →
      g'.size = g.size ∧ g'.edgeHead = g.edgeHead ∧
        ∀ i j, i ∉ l → g'.T i j = g.T i j := by
  intro l
  induction l with
  | nil =>
    intro g g' h
    simp only [sourceLoop, Option.some.injEq] at h
    subst h
    exact ⟨rfl, rfl, fun _ _ _ => rfl⟩
  | cons i rest ih =>
    intro g g' h
    unfold sourceLoop at h
    split_ifs at h
    · simp only [Option.bind_eq_some] at h
      obtain ⟨g1, hg1, hrest⟩ := h
      obtain ⟨hs1, he1, hm1⟩ := dijkstrasAlgo_inv Q g g1 i hg1
      obtain ⟨hs2, he2, hT2⟩ := ih g1 g' hrest
      refine ⟨hs2.trans hs1, he2.trans he1, ?_⟩
      intro a b hab
      have ha : a ≠ i := fun e => hab (by simp [e])
      have har : a ∉ rest := fun e => hab (List.mem_cons_of_mem _ e)
      rw [hT2 a b har, mainLoop_row Q _ _ _ _ _ _ hm1 a b ha]
      simp [startTable, setT, ha]
    · obtain ⟨hs2, he2, hT2⟩ := ih g g' h
      exact ⟨hs2, he2, fun a b hab => hT2 a b (fun e => hab (List.mem_cons_of_mem _ e))⟩

/-- With a lawful queue `findShortestPath` runs to its end on every graph. -/
theorem findShortestPath_some (Q : PriorityQueue) (hQ : Q.Lawful) (g : Graph) :
    ∃ g', findShortestPath Q g = some g' :=
  sourceLoop_some Q hQ _ _

/-! ## The entry of the source itself -/

theorem relaxLoop_visited_entry (Q : PriorityQueue) (source minIndex d : Int) :
    ∀ (edges : List EdgeNode) (T : Int → Int → Table) (pq : List AdjacentVertex),
      (T source d).visited = true →
      (relaxLoop Q source minIndex edges T pq).1 source d = T source d := by
  intro edges
  induction edges with
  | nil => intro T pq _; rfl
  | cons v rest ih =>
    intro T pq hv
    unfold relaxLoop
    split_ifs with hc
    · have hne : d ≠ v.adjVertex := by
        intro e
        rw [← e, hv] at hc
        exact Bool.noConfusion hc.1
      have hsame : setT T source v.adjVertex
          ⟨(T source v.adjVertex).visited, addInt (T source minIndex).dist v.weight, minIndex⟩
          source d = T source d := setT_col _ _ _ _ _ _ hne
      simp only
      rw [ih _ _ (by rw [hsame]; exact hv), hsame]
    · exact ih T pq hv

theorem mainLoop_visited_entry (Q : PriorityQueue) (edgeHead : Int → List EdgeNode)
    (source d : Int) :
    ∀ (n : Nat) (T : Int → Int → Table) (pq : List AdjacentVertex) (T' : Int → Int → Table),
      mainLoop Q edgeHead source n T pq = some T' →
      (T source d).visited = true → T' source d = T source d := by
  intro n
  induction n with
  | zero =>
    intro T pq T' h _
    simp only [mainLoop, Option.some.injEq] at h
    rw [h]
  | succ n ih =>
    intro T pq T' h hv
    unfold mainLoop at h
    cases hpop : Q.pop pq with
    | none => rw [hpop] at h; exact Option.noConfusion h
    | some p =>
      obtain ⟨a, r⟩ := p
      rw [hpop] at h
      simp only at h
      split_ifs at h with hc
      · have hne : d ≠ a.vertexIndex := by
          intro e
          rw [← e, hv] at hc
          exact Bool.noConfusion hc
        have hsame : setT T source a.vertexIndex
            ⟨true, (T source a.vertexIndex).dist, (T source a.vertexIndex).path⟩ source d =
            T source d := setT_col _ _ _ _ _ _ hne
        have hv1 : (setT T source a.vertexIndex
            ⟨true, (T source a.vertexIndex).dist, (T source a.vertexIndex).path⟩
            source d).visited = true := by
          rw [hsame]
          exact hv
        have hrel := relaxLoop_visited_entry Q source a.vertexIndex d (edgeHead a.vertexIndex)
          _ r hv1
        have hv2 : ((relaxLoop Q source a.vertexIndex (edgeHead a.vertexIndex)
            (setT T source a.vertexIndex
              ⟨true, (T source a.vertexIndex).dist, (T source a.vertexIndex).path⟩) r).1
            source d).visited = true := by
          rw [hrel]
          exact hv1
        rw [ih _ _ T' h hv2, hrel, hsame]
      · exact ih _ _ T' h hv

/-- The first pop of `dijkstrasAlgo` yields the source at distance 0. -/
theorem startQueue_pop (Q : PriorityQueue) (hQ : Q.Lawful) (size source : Int)
    (a : AdjacentVertex) (r : List AdjacentVertex)
    (h : Q.pop (startQueue Q size source) = some (a, r)) : a = ⟨source, 0⟩ := by
  have hmem : a ∈ startQueue Q size source :=
    (hQ.pop_perm _ a r h).mem_iff.mpr (List.mem_cons_self a r)
  have hmin := hQ.pop_min _ a r h _ (source_mem_startQueue Q hQ size source)
  rcases startQueue_mem Q hQ size source a hmem with h1 | ⟨h1, _⟩
  · exact h1
  · exfalso
    rw [h1] at hmin
    simp only [INT_MAX] at hmin
    omega

theorem dijkstrasAlgo_source_dist (Q : PriorityQueue) (hQ : Q.Lawful) (g g' : Graph)
    (source : Int) (h : dijkstrasAlgo Q g source = some g') : (g'.T source source).dist = 0 := by
  obtain ⟨_, _, hm⟩ := dijkstrasAlgo_inv Q g g' source h
  have h0 : (startTable g.T source source source).dist = 0 := by
    simp [startTable, setT]
  cases hn : (g.size - 1).toNat with
  | zero =>
    rw [hn] at hm
    simp only [mainLoop, Option.some.injEq] at hm
    rw [← hm]
    exact h0
  | succ n =>
    rw [hn] at hm
    unfold mainLoop at hm
    cases hpop : Q.pop (startQueue Q g.size source) with
    | none => rw [hpop] at hm; exact Option.noConfusion hm
    | some p =>
      obtain ⟨a, r⟩ := p
      have ha := startQueue_pop Q hQ g.size source a r hpop
      subst ha
      rw [hpop] at hm
      simp only at hm
      split_ifs at hm with hc
      · have hset : setT (startTable g.T source) source source
            ⟨true, (startTable g.T source source source).dist,
              (startTable g.T source source source).path⟩ source source =
            ⟨true, (startTable g.T source source source).dist,
              (startTable g.T source source source).path⟩ := setT_same _ _ _ _
        have hrel := relaxLoop_visited_entry Q source source source (g.edgeHead source)
          (setT (startTable g.T source) source source
            ⟨true, (startTable g.T source source source).dist,
              (startTable g.T source source source).path⟩) r (by rw [hset])
        rw [mainLoop_visited_entry Q g.edgeHead source source n _ _ g'.T hm
          (by rw [hrel, hset]), hrel, hset]
        exact h0
      · have hv : (startTable g.T source source source).visited = true := by
          simpa using hc
        rw [mainLoop_visited_entry Q g.edgeHead source source n _ _ g'.T hm hv]
        exact h0

theorem sourceLoop_source_dist (Q : PriorityQueue) (hQ : Q.Lawful) (s : Int) :
    ∀ (l : List Int) (g g' : Graph), sourceLoop Q l g = some g' → s ∈ l →
      g.edgeHead s ≠ [] → (g'.T s s).dist = 0 := by
  intro l
  induction l with
  | nil => intro g g' _ hs; simp at hs
  | cons i rest ih =>
    intro g g' h hs hne
    unfold sourceLoop at h
    by_cases hrest : s ∈ rest
    · split_ifs at h
      · simp only [Option.bind_eq_some] at h
        obtain ⟨g1, hg1, hg'⟩ := h
        obtain ⟨_, he1, _⟩ := dijkstrasAlgo_inv Q g g1 i hg1
        exact ih g1 g' hg' hrest (by rw [he1]; exact hne)
      · exact ih g g' h hrest hne
    · have hsi : s = i := by
        rcases List.mem_cons.mp hs with e | e
        · exact e
        · exact absurd e hrest
      subst hsi
      rw [if_pos hne] at h
      simp only [Option.bind_eq_some] at h
      obtain ⟨g1, hg1, hg'⟩ := h
      obtain ⟨_, _, hT⟩ := sourceLoop_inv Q rest g1 g' hg'
      rw [hT s s hrest]
      exact dijkstrasAlgo_source_dist Q hQ g g1 s hg1

/-- Claim C5: for every lawful queue, every graph with any table contents, and every valid
vertex `s` with a non-empty adjacency list, `findShortestPath` runs to its end and leaves
`T[s][s].dist == 0`. -/
theorem C5_source_distance_is_zero (Q : PriorityQueue) (hQ : Q.Lawful) (g : Graph) (s : Int)
    (hs : g.isValidVertex s = true) (hne : g.edgeHead s ≠ []) :
    ∃ g', findShortestPath Q g = some g' ∧ (g'.T s s).dist = 0 := by
  obtain ⟨g', hg'⟩ := findShortestPath_some Q hQ g
  refine ⟨g', hg', ?_⟩
  have hmem : s ∈ vertexIds (resetTable g).size :=
    (mem_vertexIds _ _).mpr ((isValidVertex_iff g s).mp hs)
  exact sourceLoop_source_dist Q hQ s _ _ g' hg' hmem hne

/-- The statement of C5 on the one-vertex graph whose only edge is the loop 1 -> 1. -/
theorem C5_source_distance_witness :
    ∃ g', findShortestPath listPQ (buildGraph 1 [(1, 1, 3)]) = some g' ∧ (g'.T 1 1).dist = 0 :=
  C5_source_distance_is_zero listPQ listPQ_lawful (buildGraph 1 [(1, 1, 3)]) 1
    (by decide) (by decide)

/-! ## The reset of the table -/

theorem resetRow_apply (source : Int) :
    ∀ (dests : List Int) (T : Int → Int → Table) (i j : Int),
      resetRow source dests T i j =
        if i = source ∧ j ∈ dests then ⟨false, INT_MAX, 0⟩ else T i j := by
  intro dests
  induction dests with
  | nil => intro T i j; simp [resetRow]
  | cons d rest ih =>
    intro T i j
    unfold resetRow
    rw [ih]
    by_cases h1 : i = source
    · by_cases h2 : j ∈ rest
      · simp [h1, h2]
      · by_cases h3 : j = d
        · simp [h1, h3, setT]
        · simp [h1, h2, h3, setT]
    · simp [h1, setT]

theorem resetRows_apply (dests : List Int) :
    ∀ (sources : List Int) (T : Int → Int → Table) (i j : Int),
      resetRows dests sources T i j =
        if i ∈ sources ∧ j ∈ dests then ⟨false, INT_MAX, 0⟩ else T i j := by
  intro sources
  induction sources with
  | nil => intro T i j; simp [resetRows]
  | cons s rest ih =>
    intro T i j
    unfold resetRows
    rw [ih, resetRow_apply]
    by_cases h1 : i ∈ rest
    · by_cases h2 : j ∈ dests
      · simp [h1, h2]
      · simp [h2]
    · by_cases h3 : i = s
      · subst h3
        simp [h1]
      · simp [h1, h3]

/-- The table after `resetTable`: the entries of the valid pairs are reset, the others keep
their contents. -/
theorem resetTable_T (g : Graph) (i j : Int) :
    (resetTable g).T i j =
      if (1 ≤ i ∧ i ≤ g.size) ∧ (1 ≤ j ∧ j ≤ g.size) then ⟨false, INT_MAX, 0⟩ else g.T i j := by
  unfold resetTable
  simp only [resetRows_apply, mem_vertexIds]

/-! ## Two runs from tables that agree on the valid pairs -/

theorem relaxLoop_mem (Q : PriorityQueue) (hQ : Q.Lawful) (source minIndex : Int) :
    ∀ (edges : List EdgeNode) (T : Int → Int → Table) (pq : List AdjacentVertex)
      (b : AdjacentVertex), b ∈ (relaxLoop Q source minIndex edges T pq).2 →
      b ∈ pq ∨ ∃ e ∈ edges, b.vertexIndex = e.adjVertex := by
  intro edges
  induction edges with
  | nil => intro T pq b h; exact Or.inl h
  | cons v rest ih =>
    intro T pq b h
    unfold relaxLoop at h
    split_ifs at h
    · rcases ih _ _ b h with h1 | ⟨e, he, hb⟩
      · rcases List.mem_cons.mp ((hQ.push_perm pq _).mem_iff.mp h1) with rfl | h2
        · exact Or.inr ⟨v, List.mem_cons_self _ _, rfl⟩
        · exact Or.inl h2
      · exact Or.inr ⟨e, List.mem_cons_of_mem _ he, hb⟩
    · rcases ih _ _ b h with h1 | ⟨e, he, hb⟩
      · exact Or.inl h1
      · exact Or.inr ⟨e, List.mem_cons_of_mem _ he, hb⟩

theorem relaxLoop_agree (Q : PriorityQueue) (N source minIndex : Int)
    (hm : 1 ≤ minIndex ∧ minIndex ≤ N) :
    ∀ (edges : List EdgeNode) (T1 T2 : Int → Int → Table) (pq : List AdjacentVertex),
      (∀ e ∈ edges, 1 ≤ e.adjVertex ∧ e.adjVertex ≤ N) →
      (∀ j, 1 ≤ j → j ≤ N → T1 source j = T2 source j) →
      (relaxLoop Q source minIndex edges T1 pq).2 = (relaxLoop Q source minIndex edges T2 pq).2 ∧
      ∀ j, 1 ≤ j → j ≤ N →
        (relaxLoop Q source minIndex edges T1 pq).1 source j =
          (relaxLoop Q source minIndex edges T2 pq).1 source j := by
  intro edges
  induction edges with
  | nil => intro T1 T2 pq _ hT; exact ⟨rfl, hT⟩
  | cons v rest ih =>
    intro T1 T2 pq hedges hT
    have hv := hedges v (List.mem_cons_self _ _)
    have hrest : ∀ e ∈ rest, 1 ≤ e.adjVertex ∧ e.adjVertex ≤ N :=
      fun e he => hedges e (List.mem_cons_of_mem _ he)
    have e1 : T1 source v.adjVertex = T2 source v.adjVertex := hT _ hv.1 hv.2
    have e2 : T1 source minIndex = T2 source minIndex := hT _ hm.1 hm.2
    unfold relaxLoop
    rw [e1, e2]
    split_ifs
    · simp only
      apply ih _ _ _ hrest
      intro j hj1 hj2
      by_cases hj : j = v.adjVertex
      · subst hj
        simp [setT]
      · simp only [setT, hj, and_false, if_false]
        exact hT j hj1 hj2
    · exact ih T1 T2 pq hrest hT

theorem mainLoop_agree (Q : PriorityQueue) (hQ : Q.Lawful) (edgeHead : Int → List EdgeNode)
    (N source : Int)
    (hwf : ∀ v, 1 ≤ v → v ≤ N → ∀ e ∈ edgeHead v, 1 ≤ e.adjVertex ∧ e.adjVertex ≤ N) :
    ∀ (n : Nat) (T1 T2 : Int → Int → Table) (pq : List AdjacentVertex)
      (T1' T2' : Int → Int → Table),
      (∀ b ∈ pq, 1 ≤ b.vertexIndex ∧ b.vertexIndex ≤ N) →
      (∀ j, 1 ≤ j → j ≤ N → T1 source j = T2 source j) →
      mainLoop Q edgeHead source n T1 pq = some T1' →
      mainLoop Q edgeHead source n T2 pq = some T2' →
      ∀ j, 1 ≤ j → j ≤ N → T1' source j = T2' source j := by
  intro n
  induction n with
  | zero =>
    intro T1 T2 pq T1' T2' _ hT h1 h2
    simp only [mainLoop, Option.some.injEq] at h1 h2
    rw [← h1, ← h2]
    exact hT
  | succ n ih =>
    intro T1 T2 pq T1' T2' hpq hT h1 h2
    unfold mainLoop at h1 h2
    cases hpop : Q.pop pq with
    | none => rw [hpop] at h1; exact Option.noConfusion h1
    | some p =>
      obtain ⟨a, r⟩ := p
      rw [hpop] at h1 h2
      simp only at h1 h2
      have hperm := hQ.pop_perm pq a r hpop
      have ha : 1 ≤ a.vertexIndex ∧ a.vertexIndex ≤ N :=
        hpq a (hperm.mem_iff.mpr (List.mem_cons_self _ _))
      have hr : ∀ b ∈ r, 1 ≤ b.vertexIndex ∧ b.vertexIndex ≤ N :=
        fun b hb => hpq b (hperm.mem_iff.mpr (List.mem_cons_of_mem _ hb))
      have e1 : T1 source a.vertexIndex = T2 source a.vertexIndex := hT _ ha.1 ha.2
      rw [e1] at h1
      by_cases hc : (T2 source a.vertexIndex).visited = false
      · rw [if_pos hc] at h1 h2
        have hT' : ∀ j, 1 ≤ j → j ≤ N →
            setT T1 source a.vertexIndex
              ⟨true, (T2 source a.vertexIndex).dist, (T2 source a.vertexIndex).path⟩ source j =
            setT T2 source a.vertexIndex
              ⟨true, (T2 source a.vertexIndex).dist, (T2 source a.vertexIndex).path⟩ source j := by
          intro j hj1 hj2
          by_cases hj : j = a.vertexIndex
          · subst hj
            simp [setT]
          · simp only [setT, hj, and_false, if_false]
            exact hT j hj1 hj2
        obtain ⟨hq, hTT⟩ := relaxLoop_agree Q N source a.vertexIndex ha
          (edgeHead a.vertexIndex) _ _ r (hwf _ ha.1 ha.2) hT'
        rw [hq] at h1
        refine ih _ _ _ T1' T2' ?_ hTT h1 h2
        intro b hb
        rcases relaxLoop_mem Q hQ source _ _ _ _ b hb with hb1 | ⟨e, he, hbe⟩
        · exact hr b hb1
        · rw [hbe]
          exact hwf _ ha.1 ha.2 e he
      · rw [if_neg hc] at h1 h2
        exact ih _ _ _ T1' T2' hr hT h1 h2

theorem dijkstrasAlgo_agree (Q : PriorityQueue) (hQ : Q.Lawful) (g1 g2 g1' g2' : Graph)
    (source : Int) (hsize : g1.size = g2.size) (hadj : g1.edgeHead = g2.edgeHead)
    (hsrc : 1 ≤ source ∧ source ≤ g1.size)
    (hwf : ∀ v, 1 ≤ v → v ≤ g1.size →
      ∀ e ∈ g1.edgeHead v, 1 ≤ e.adjVertex ∧ e.adjVertex ≤ g1.size)
    (hT : ∀ i j, 1 ≤ i → i ≤ g1.size → 1 ≤ j → j ≤ g1.size → g1.T i j = g2.T i j)
    (h1 : dijkstrasAlgo Q g1 source = some g1') (h2 : dijkstrasAlgo Q g2 source = some g2') :
    ∀ i j, 1 ≤ i → i ≤ g1.size → 1 ≤ j → j ≤ g1.size → g1'.T i j = g2'.T i j := by
  obtain ⟨_, _, hm1⟩ := dijkstrasAlgo_inv Q g1 g1' source h1
  obtain ⟨_, _, hm2⟩ := dijkstrasAlgo_inv Q g2 g2' source h2
  rw [← hsize, ← hadj] at hm2
  intro i j hi1 hi2 hj1 hj2
  by_cases hi : i = source
  · subst hi
    refine mainLoop_agree Q hQ g1.edgeHead g1.size i hwf _ _ _ _ g1'.T g2'.T ?_ ?_ hm1 hm2
      j hj1 hj2
    · intro b hb
      rcases startQueue_mem Q hQ _ _ b hb with rfl | ⟨_, hb1, hb2⟩
      · exact hsrc
      · exact ⟨hb1, hb2⟩
    · intro k hk1 hk2
      by_cases hk : k = i
      · subst hk
        simp [startTable, setT, hT k k hk1 hk2 hk1 hk2]
      · simp only [startTable, setT, hk, and_false, if_false]
        exact hT i k hi1 hi2 hk1 hk2
  · rw [mainLoop_row Q _ _ _ _ _ _ hm1 i j hi, mainLoop_row Q _ _ _ _ _ _ hm2 i j hi]
    simp only [startTable, setT, hi, false_and, if_false]
    exact hT i j hi1 hi2 hj1 hj2

theorem sourceLoop_agree (Q : PriorityQueue) (hQ : Q.Lawful) :
    ∀ (l : List Int) (g1 g2 g1' g2' : Graph),
      g1.size = g2.size → g1.edgeHead = g2.edgeHead →
      (∀ s ∈ l, 1 ≤ s ∧ s ≤ g1.size) →
      (∀ v, 1 ≤ v → v ≤ g1.size →
        ∀ e ∈ g1.edgeHead v, 1 ≤ e.adjVertex ∧ e.adjVertex ≤ g1.size) →
      (∀ i j, 1 ≤ i → i ≤ g1.size → 1 ≤ j → j ≤ g1.size → g1.T i j = g2.T i j) →
      sourceLoop Q l g1 = some g1' → sourceLoop Q l g2 = some g2' →
      ∀ i j, 1 ≤ i → i ≤ g1.size → 1 ≤ j → j ≤ g1.size → g1'.T i j = g2'.T i j := by
  intro l
  induction l with
  | nil =>
    intro g1 g2 g1' g2' _ _ _ _ hT h1 h2
    simp only [sourceLoop, Option.some.injEq] at h1 h2
    rw [← h1, ← h2]
    exact hT
  | cons s rest ih =>
    intro g1 g2 g1' g2' hsize hadj hl hwf hT h1 h2
    unfold sourceLoop at h1 h2
    rw [← hadj] at h2
    have hrest : ∀ s ∈ rest, 1 ≤ s ∧ s ≤ g1.size := fun x hx => hl x (List.mem_cons_of_mem _ hx)
    by_cases hne : g1.edgeHead s ≠ []
    · rw [if_pos hne] at h1 h2
      simp only [Option.bind_eq_some] at h1 h2
      obtain ⟨a1, ha1, hr1⟩ := h1
      obtain ⟨a2, ha2, hr2⟩ := h2
      obtain ⟨hs1, he1, _⟩ := dijkstrasAlgo_inv Q g1 a1 s ha1
      obtain ⟨hs2, he2, _⟩ := dijkstrasAlgo_inv Q g2 a2 s ha2
      have hTa := dijkstrasAlgo_agree Q hQ g1 g2 a1 a2 s hsize hadj
        (hl s (List.mem_cons_self _ _)) hwf hT ha1 ha2
      have := ih a1 a2 g1' g2' (by rw [hs1, hs2, hsize]) (by rw [he1, he2, hadj])
        (by rw [hs1]; exact hrest) (by rw [hs1, he1]; exact hwf) (by rw [hs1]; exact hTa)
        hr1 hr2
      rw [hs1] at this
      exact this
    · rw [if_neg hne] at h1 h2
      exact ih g1 g2 g1' g2' hsize hadj hrest hwf hT h1 h2

/-- Claim C6: for every lawful queue and every graph whose stored edges lead to valid
vertices (the invariant of the store), with any prior table contents, `findShortestPath`
run a second time right after the first gives the same entry `T[s][d]` (visited flag,
distance and predecessor) for all `s`, `d` in `1..size`, and leaves the vertex count and the
adjacency lists as they were. -/
theorem C6_findShortestPath_twice_same_table (Q : PriorityQueue) (hQ : Q.Lawful) (g : Graph)
    (hwf : ∀ v, 1 ≤ v → v ≤ g.size →
      ∀ e ∈ g.edgeHead v, 1 ≤ e.adjVertex ∧ e.adjVertex ≤ g.size) :
    ∃ g1 g2, findShortestPath Q g = some g1 ∧ findShortestPath Q g1 = some g2 ∧
      g2.size = g1.size ∧ g2.edgeHead = g1.edgeHead ∧
      ∀ s d, 1 ≤ s → s ≤ g.size → 1 ≤ d → d ≤ g.size → g2.T s d = g1.T s d := by
  obtain ⟨g1, hg1⟩ := findShortestPath_some Q hQ g
  obtain ⟨g2, hg2⟩ := findShortestPath_some Q hQ g1
  obtain ⟨hs1, he1, _⟩ := sourceLoop_inv Q _ _ g1 hg1
  obtain ⟨hs2, he2, _⟩ := sourceLoop_inv Q _ _ g2 hg2
  have hsz : g1.size = g.size := hs1
  have had : g1.edgeHead = g.edgeHead := he1
  refine ⟨g1, g2, hg1, hg2, hs2, he2, ?_⟩
  unfold findShortestPath at hg1 hg2
  rw [hsz] at hg2
  have key := sourceLoop_agree Q hQ (vertexIds g.size) (resetTable g1) (resetTable g) g2 g1
    (by show g1.size = g.size; exact hsz) (by show g1.edgeHead = g.edgeHead; exact had)
    (by
      intro s hs
      show 1 ≤ s ∧ s ≤ g1.size
      rw [hsz]
      exact (mem_vertexIds _ _).mp hs)
    (by
      show ∀ v, 1 ≤ v → v ≤ g1.size →
        ∀ e ∈ g1.edgeHead v, 1 ≤ e.adjVertex ∧ e.adjVertex ≤ g1.size
      rw [hsz, had]
      exact hwf)
    (by
      intro i j hi1 hi2 hj1 hj2
      have hi2' : i ≤ g1.size := hi2
      have hj2' : j ≤ g1.size := hj2
      rw [resetTable_T, resetTable_T, if_pos ⟨⟨hi1, hi2'⟩, ⟨hj1, hj2'⟩⟩,
        if_pos ⟨⟨hi1, hsz ▸ hi2'⟩, ⟨hj1, hsz ▸ hj2'⟩⟩])
    hg2 hg1
  intro s d h1 h2 h3 h4
  exact key s d h1 (by show s ≤ g1.size; rw [hsz]; exact h2) h3
    (by show d ≤ g1.size; rw [hsz]; exact h4)

/-- The statement of C6 on the five-vertex graph in which a stale entry is popped. -/
theorem C6_findShortestPath_twice_witness :
    ∃ g1 g2, findShortestPath listPQ staleGraph = some g1 ∧
      findShortestPath listPQ g1 = some g2 ∧
      g2.size = g1.size ∧ g2.edgeHead = g1.edgeHead ∧
      ∀ s d, 1 ≤ s → s ≤ staleGraph.size → 1 ≤ d → d ≤ staleGraph.size →
        g2.T s d = g1.T s d :=
  C6_findShortestPath_twice_same_table listPQ listPQ_lawful staleGraph (by
    intro v h1 h2 e he
    have hv : v = 1 ∨ v = 2 ∨ v = 3 ∨ v = 4 ∨ v = 5 := by
      have : v ≤ 5 := h2
      omega
    rcases hv with rfl | rfl | rfl | rfl | rfl <;> revert e <;> decide)

/-! ## Every run with a lawful queue is one of `allRuns` -/

theorem relaxLoop_sim (Q1 Q2 : PriorityQueue) (h1 : Q1.Lawful) (h2 : Q2.Lawful)
    (source minIndex : Int) :
    ∀ (edges : List EdgeNode) (T1 T2 : Int → Int → Table) (q1 q2 : List AdjacentVertex),
      T1 source = T2 source → q1.Perm q2 →
      (relaxLoop Q1 source minIndex edges T1 q1).1 source =
          (relaxLoop Q2 source minIndex edges T2 q2).1 source ∧
        ((relaxLoop Q1 source minIndex edges T1 q1).2).Perm
          (relaxLoop Q2 source minIndex edges T2 q2).2 := by
  intro edges
  induction edges with
  | nil => intro T1 T2 q1 q2 hT hq; exact ⟨hT, hq⟩
  | cons v rest ih =>
    intro T1 T2 q1 q2 hT hq
    have e1 : T1 source v.adjVertex = T2 source v.adjVertex := congrFun hT _
    have e2 : T1 source minIndex = T2 source minIndex := congrFun hT _
    unfold relaxLoop
    rw [e1, e2]
    split_ifs
    · simp only
      apply ih
      · funext j
        by_cases hj : j = v.adjVertex
        · simp [setT, hj]
        · simp only [setT, hj, and_false, if_false]
          exact congrFun hT j
      · exact ((h1.push_perm q1 _).trans (hq.cons _)).trans (h2.push_perm q2 _).symm
    · exact ih T1 T2 q1 q2 hT hq

theorem seedLoop_sim (Q1 Q2 : PriorityQueue) (h1 : Q1.Lawful) (h2 : Q2.Lawful) (source : Int) :
    ∀ (l : List Int) (q1 q2 : List AdjacentVertex), q1.Perm q2 →
      (seedLoop Q1 source l q1).Perm (seedLoop Q2 source l q2) := by
  intro l
  induction l with
  | nil => intro q1 q2 hq; exact hq
  | cons d rest ih =>
    intro q1 q2 hq
    unfold seedLoop
    split_ifs
    · exact ih _ _ (((h1.push_perm q1 _).trans (hq.cons _)).trans (h2.push_perm q2 _).symm)
    · exact ih _ _ hq

theorem startQueue_sim (Q1 Q2 : PriorityQueue) (h1 : Q1.Lawful) (h2 : Q2.Lawful)
    (size source : Int) : (startQueue Q1 size source).Perm (startQueue Q2 size source) :=
  seedLoop_sim Q1 Q2 h1 h2 source _ _ _ ((h1.push_perm [] _).trans (h2.push_perm [] _).symm)

theorem mem_minEntries (pq : List AdjacentVertex) (a : AdjacentVertex) (ha : a ∈ pq)
    (hmin : ∀ b ∈ pq, a.dist ≤ b.dist) : a ∈ minEntries pq := by
  unfold minEntries
  rw [List.mem_filter]
  refine ⟨ha, ?_⟩
  rw [List.all_eq_true]
  intro b hb
  exact decide_eq_true (hmin b hb)

theorem allRuns_sound (Q : PriorityQueue) (hQ : Q.Lawful) (edgeHead : Int → List EdgeNode)
    (source : Int) (P : (Int → Table) → Bool) :
    ∀ (n : Nat) (T T0 : Int → Int → Table) (pq pq0 : List AdjacentVertex),
      T source = T0 source → pq.Perm pq0 → allRuns edgeHead source P n T0 pq0 = true →
      ∃ T', mainLoop Q edgeHead source n T pq = some T' ∧ P (T' source) = true := by
  intro n
  induction n with
  | zero =>
    intro T T0 pq pq0 hT _ h
    refine ⟨T, rfl, ?_⟩
    rw [hT]
    exact h
  | succ n ih =>
    intro T T0 pq pq0 hT hperm h
    unfold allRuns at h
    rw [Bool.and_eq_true, List.all_eq_true] at h
    obtain ⟨hne0, hall⟩ := h
    have hne : pq ≠ [] := by
      intro e
      rw [e] at hperm
      rw [List.nil_perm.mp hperm] at hne0
      simp at hne0
    obtain ⟨a, r, hpop⟩ := hQ.pop_some pq hne
    have hpr := hQ.pop_perm pq a r hpop
    have ha0 : a ∈ pq0 := hperm.mem_iff.mp (hpr.mem_iff.mpr (List.mem_cons_self _ _))
    have hmin0 : ∀ b ∈ pq0, a.dist ≤ b.dist :=
      fun b hb => hQ.pop_min pq a r hpop b (hperm.mem_iff.mpr hb)
    have hbody := hall a (mem_minEntries pq0 a ha0 hmin0)
    have hr : r.Perm (pq0.erase a) := by
      have := (hpr.symm.trans hperm).erase a
      rw [List.erase_cons_head] at this
      exact this
    have e1 : T source a.vertexIndex = T0 source a.vertexIndex := congrFun hT _
    unfold mainLoop
    rw [hpop]
    simp only
    rw [e1]
    by_cases hc : (T0 source a.vertexIndex).visited = false
    · rw [if_pos hc] at hbody ⊢
      simp only at hbody
      have hT1 : setT T source a.vertexIndex
            ⟨true, (T0 source a.vertexIndex).dist, (T0 source a.vertexIndex).path⟩ source =
          setT T0 source a.vertexIndex
            ⟨true, (T0 source a.vertexIndex).dist, (T0 source a.vertexIndex).path⟩ source := by
        funext j
        by_cases hj : j = a.vertexIndex
        · simp [setT, hj]
        · simp only [setT, hj, and_false, if_false]
          exact congrFun hT j
      obtain ⟨hrow, hq⟩ := relaxLoop_sim Q listPQ hQ listPQ_lawful source a.vertexIndex
        (edgeHead a.vertexIndex) _ _ r (pq0.erase a) hT1 hr
      exact ih _ _ _ _ hrow hq hbody
    · rw [if_neg hc] at hbody ⊢
      exact ih _ _ _ _ hT hr hbody

theorem sourceLoop_row (Q : PriorityQueue) (s : Int) :
    ∀ (l : List Int) (g g' : Graph), sourceLoop Q l g = some g' → s ∈ l → l.Nodup →
      g.edgeHead s ≠ [] →
      ∃ Tb T', Tb s = g.T s ∧
        mainLoop Q g.edgeHead s (g.size - 1).toNat (startTable Tb s) (startQueue Q g.size s) =
          some T' ∧
        g'.T s = T' s := by
  intro l
  induction l with
  | nil => intro g g' _ hs; simp at hs
  | cons i rest ih =>
    intro g g' h hs hnd hne
    obtain ⟨hi, hrest⟩ := List.nodup_cons.mp hnd
    unfold sourceLoop at h
    by_cases hsi : s = i
    · subst hsi
      rw [if_pos hne] at h
      simp only [Option.bind_eq_some] at h
      obtain ⟨g1, hg1, hg'⟩ := h
      obtain ⟨_, _, hm⟩ := dijkstrasAlgo_inv Q g g1 s hg1
      obtain ⟨_, _, hT⟩ := sourceLoop_inv Q rest g1 g' hg'
      exact ⟨g.T, g1.T, rfl, hm, funext fun j => hT s j hi⟩
    · have hsr : s ∈ rest := by
        rcases List.mem_cons.mp hs with e | e
        · exact absurd e hsi
        · exact e
      split_ifs at h
      · simp only [Option.bind_eq_some] at h
        obtain ⟨g1, hg1, hg'⟩ := h
        obtain ⟨hs1, he1, hm⟩ := dijkstrasAlgo_inv Q g g1 i hg1
        obtain ⟨Tb, T', hTb, hmain, hrow⟩ := ih g1 g' hg' hsr hrest (by rw [he1]; exact hne)
        rw [hs1, he1] at hmain
        refine ⟨Tb, T', ?_, hmain, hrow⟩
        rw [hTb]
        funext j
        rw [mainLoop_row Q _ _ _ _ _ _ hm s j hsi]
        simp [startTable, setT, hsi]
      · exact ih g g' h hsr hrest hne

/-- What `allRunsFrom` establishes: when every run from `source` that some choice of
`top()` among equal distances allows ends with a row satisfying `P`, then with every lawful
queue `findShortestPath` runs to its end and row `source` of its table satisfies `P`. -/
theorem findShortestPath_row (Q : PriorityQueue) (hQ : Q.Lawful) (g : Graph) (s : Int)
    (P : (Int → Table) → Bool) (hs : g.isValidVertex s = true) (hne : g.edgeHead s ≠ [])
    (h : allRunsFrom g s P = true) :
    ∃ g', findShortestPath Q g = some g' ∧ g'.size = g.size ∧ g'.edgeHead = g.edgeHead ∧
      P (g'.T s) = true := by
  obtain ⟨g', hg'⟩ := findShortestPath_some Q hQ g
  obtain ⟨hsz, hed, _⟩ := sourceLoop_inv Q _ _ g' hg'
  refine ⟨g', hg', hsz, hed, ?_⟩
  have hmem : s ∈ vertexIds (resetTable g).size :=
    (mem_vertexIds _ _).mpr ((isValidVertex_iff g s).mp hs)
  obtain ⟨Tb, T', hTb, hmain, hrow⟩ :=
    sourceLoop_row Q s _ _ g' hg' hmem (vertexIds_nodup _) hne
  have hstart : startTable Tb s s = startTable (resetTable g).T s s := by
    funext j
    simp only [startTable, setT]
    rw [hTb]
  obtain ⟨T'', hT'', hP⟩ := allRuns_sound Q hQ g.edgeHead s P (g.size - 1).toNat
    (startTable Tb s) (startTable (resetTable g).T s) (startQueue Q g.size s)
    (startQueue listPQ g.size s) hstart (startQueue_sim Q listPQ hQ listPQ_lawful _ _) h
  have hT : T' = T'' := by
    have hmain' : mainLoop Q g.edgeHead s (g.size - 1).toNat (startTable Tb s)
        (startQueue Q g.size s) = some T' := hmain
    rw [hT''] at hmain'
    exact (Option.some.inj hmain').symm
  rw [hrow, hT]
  exact hP

/-! ## The engine on graphs where it misses the shortest paths -/

/-- Claim C1, the program on `staleGraph` (weights `>= 0`, sums far below `INT_MAX`), with
any lawful queue: the walk 1 -> 4 -> 5 weighs 11, and `findShortestPath` ends with
`T[1][5].dist = 20`.  The pops from source 1 are `(1,0)`, `(2,1)`, `(3,2)` and the stale
`(3,5)`, which uses up the fourth and last iteration. -/
theorem C1_stale_pop_leaves_distance_above_minimum (Q : PriorityQueue) (hQ : Q.Lawful) :
    ∃ g', findShortestPath Q staleGraph = some g' ∧ (g'.T 1 5).dist = 20 ∧
      walkWeight staleGraph 1 [4, 5] = some 11 := by
  obtain ⟨g', hg', _, _, hP⟩ := findShortestPath_row Q hQ staleGraph 1
    (fun row => decide ((row 5).dist = 20)) (by decide) (by decide) (by decide)
  exact ⟨g', hg', of_decide_eq_true hP, by decide⟩

/-- The statement of C1 with the list queue. -/
theorem C1_stale_pop_witness :
    ∃ g', findShortestPath listPQ staleGraph = some g' ∧ (g'.T 1 5).dist = 20 ∧
      walkWeight staleGraph 1 [4, 5] = some 11 :=
  C1_stale_pop_leaves_distance_above_minimum listPQ listPQ_lawful

/-- Claim C2, the program on `staleGraph`, with any lawful queue: `T[1][5].dist` is finite
(20) and the predecessor walk from 5 reaches the source 1 in one step, over the edge 1 -> 5
of weight 20, while the lighter walk 1 -> 4 -> 5 of weight 11 has two edges. -/
theorem C2_predecessor_walk_shorter_than_minimum_path (Q : PriorityQueue) (hQ : Q.Lawful) :
    ∃ g', findShortestPath Q staleGraph = some g' ∧ (g'.T 1 5).dist = 20 ∧
      predSteps g' 1 5 5 = some 1 ∧
      walkWeight staleGraph 1 [5] = some 20 ∧ walkWeight staleGraph 1 [4, 5] = some 11 := by
  obtain ⟨g', hg', hsz, _, hP⟩ := findShortestPath_row Q hQ staleGraph 1
    (fun row => decide ((row 5).dist = 20 ∧ (row 5).path = 1)) (by decide) (by decide)
    (by decide)
  obtain ⟨hd, hp⟩ := of_decide_eq_true hP
  have h5 : g'.size = 5 := hsz
  refine ⟨g', hg', hd, ?_, by decide, by decide⟩
  simp [predSteps, isValidVertex, h5, hp]

/-- The statement of C2 with the list queue. -/
theorem C2_predecessor_walk_witness :
    ∃ g', findShortestPath listPQ staleGraph = some g' ∧ (g'.T 1 5).dist = 20 ∧
      predSteps g' 1 5 5 = some 1 ∧
      walkWeight staleGraph 1 [5] = some 20 ∧ walkWeight staleGraph 1 [4, 5] = some 11 :=
  C2_predecessor_walk_shorter_than_minimum_path listPQ listPQ_lawful

/-- Claim C4, the program on `islandGraph`, with any lawful queue: vertex 1 has the loop
1 -> 1 as its only edge, so 2 and 3 are not reachable from 1.  The second iteration pops an
entry at distance `INT_MAX`, of vertex 2 or of vertex 3, marks that vertex visited and
relaxes its edge to the other with the sum `INT_MAX + 1`, which wraps to `INT_MIN`: one of
`T[1][3]`, `T[1][2]` ends with `dist = INT_MIN` and the other vertex as predecessor. -/
theorem C4_unreachable_vertex_gets_wrapped_distance (Q : PriorityQueue) (hQ : Q.Lawful) :
    ∃ g', findShortestPath Q islandGraph = some g' ∧ islandGraph.edgeHead 1 = [⟨1, 4⟩] ∧
      ((g'.T 1 2 = ⟨true, INT_MAX, 0⟩ ∧ g'.T 1 3 = ⟨false, INT_MIN, 2⟩) ∨
        (g'.T 1 3 = ⟨true, INT_MAX, 0⟩ ∧ g'.T 1 2 = ⟨false, INT_MIN, 3⟩)) := by
  obtain ⟨g', hg', _, _, hP⟩ := findShortestPath_row Q hQ islandGraph 1
    (fun row => decide ((row 2 = ⟨true, INT_MAX, 0⟩ ∧ row 3 = ⟨false, INT_MIN, 2⟩) ∨
      (row 3 = ⟨true, INT_MAX, 0⟩ ∧ row 2 = ⟨false, INT_MIN, 3⟩)))
    (by decide) (by decide) (by decide)
  exact ⟨g', hg', by decide, of_decide_eq_true hP⟩

/-- The statement of C4 with the list queue. -/
theorem C4_unreachable_vertex_witness :
    ∃ g', findShortestPath listPQ islandGraph = some g' ∧ islandGraph.edgeHead 1 = [⟨1, 4⟩] ∧
      ((g'.T 1 2 = ⟨true, INT_MAX, 0⟩ ∧ g'.T 1 3 = ⟨false, INT_MIN, 2⟩) ∨
        (g'.T 1 3 = ⟨true, INT_MAX, 0⟩ ∧ g'.T 1 2 = ⟨false, INT_MIN, 3⟩)) :=
  C4_unreachable_vertex_gets_wrapped_distance listPQ listPQ_lawful

/-! ## Removing an edge -/

theorem toList?_ofList (l : List EdgeNode) : Link.toList? (Link.ofList l) = some l := by
  induction l with
  | nil => rfl
  | cons e rest ih => simp [Link.ofList, Link.toList?, ih]

theorem removeEdgeLoop_absent (dest : Int) :
    ∀ (rest : List EdgeNode) (curr : EdgeNode), (∀ e ∈ rest, e.adjVertex ≠ dest) →
      removeEdgeLoop dest curr rest = (false, Link.ofList (curr :: rest)) := by
  intro rest
  induction rest with
  | nil => intro curr _; rfl
  | cons next after ih =>
    intro curr h
    have hn : next.adjVertex ≠ dest := h next (List.mem_cons_self _ _)
    have ha : ∀ e ∈ after, e.adjVertex ≠ dest := fun e he => h e (List.mem_cons_of_mem _ he)
    unfold removeEdgeLoop
    rw [if_neg hn, ih next ha]
    rfl

/-- Claim C11: for a valid source with a non-empty adjacency list and a valid destination
to which it has no edge, `removeEdge` returns false and leaves the list of the source as it
was; the graph after the call is the graph before it, every other list included. -/
theorem C11_removeEdge_absent_edge_returns_false (g : Graph) (s d : Int)
    (hs : g.isValidVertex s = true) (hd : g.isValidVertex d = true)
    (hne : g.edgeHead s ≠ []) (habs : ∀ e ∈ g.edgeHead s, e.adjVertex ≠ d) :
    g.removeEdge s d = RemoveResult.returned false (Link.ofList (g.edgeHead s)) ∧
      g.removeEdgeGraph s d = some (false, g) := by
  have h1 : g.removeEdge s d = RemoveResult.returned false (Link.ofList (g.edgeHead s)) := by
    unfold removeEdge
    simp only [hs, hd, Bool.not_true, Bool.false_eq_true, if_false]
    cases hl : g.edgeHead s with
    | nil => exact absurd hl hne
    | cons curr rest =>
      rw [hl] at habs
      have hc : curr.adjVertex ≠ d := habs curr (List.mem_cons_self _ _)
      have hr : ∀ e ∈ rest, e.adjVertex ≠ d := fun e he => habs e (List.mem_cons_of_mem _ he)
      simp only [if_neg hc, removeEdgeLoop_absent d rest curr hr]
  refine ⟨h1, ?_⟩
  unfold removeEdgeGraph
  rw [h1]
  simp only [toList?_ofList, Option.map_some', Function.update_eq_self]

/-- The statement of C11 on the example graph: vertex 1 has edges to 3 and 2, none to 1. -/
theorem C11_removeEdge_absent_edge_witness :
    exampleGraph.removeEdge 1 1 =
        RemoveResult.returned false (Link.ofList (exampleGraph.edgeHead 1)) ∧
      exampleGraph.removeEdgeGraph 1 1 = some (false, exampleGraph) :=
  C11_removeEdge_absent_edge_returns_false exampleGraph 1 1 (by decide) (by decide)
    (by decide) (by decide)

/-- Claim C12, the program on a source without edges: for valid `source` and `dest` and an
empty adjacency list, `removeEdge` reads `curr->adjVertex` through the null `edgeHead`; it
does not return false. -/
theorem C12_removeEdge_empty_list_null_dereference (g : Graph) (s d : Int)
    (hs : g.isValidVertex s = true) (hd : g.isValidVertex d = true)
    (hempty : g.edgeHead s = []) :
    g.removeEdge s d = RemoveResult.nullDeref ∧
      g.removeEdge s d ≠ RemoveResult.returned false (Link.ofList (g.edgeHead s)) := by
  have h1 : g.removeEdge s d = RemoveResult.nullDeref := by
    unfold removeEdge
    simp only [hs, hd, Bool.not_true, Bool.false_eq_true, if_false, hempty]
  rw [h1]
  exact ⟨rfl, fun h => RemoveResult.noConfusion h⟩

/-- The statement of C12 on the example graph, whose vertex 3 has no edges. -/
theorem C12_removeEdge_empty_list_witness :
    exampleGraph.removeEdge 3 1 = RemoveResult.nullDeref ∧
      exampleGraph.removeEdge 3 1 ≠
        RemoveResult.returned false (Link.ofList (exampleGraph.edgeHead 3)) :=
  C12_removeEdge_empty_list_null_dereference exampleGraph 3 1 (by decide) (by decide)
    (by decide)

/-! ## What `insertEdge` leaves alone, and the invariant of the store -/

theorem insertEdge_edgeHead_other (g : Graph) (s d w v : Int) (hv : v ≠ s) :
    (g.insertEdge s d w).edgeHead v = g.edgeHead v := by
  unfold insertEdge
  split_ifs <;> try rfl
  split <;> simp [Function.update_noteq hv]

theorem insertEdge_of_invalid (g : Graph) (s d w : Int)
    (h : ¬ (g.isValidVertex s = true ∧ g.isValidVertex d = true ∧ 0 ≤ w)) :
    g.insertEdge s d w = g := by
  unfold insertEdge
  by_cases hs : g.isValidVertex s = true
  · by_cases hd : g.isValidVertex d = true
    · have hw : w < 0 := by
        by_contra hneg
        exact h ⟨hs, hd, not_lt.mp hneg⟩
      simp [hs, hd, hw]
    · simp [hs, hd]
  · simp [hs]

theorem insertEdge_countP_le_one (g : Graph) (s d w : Int)
    (h : ∀ v x, (g.edgeHead v).countP (fun e => e.adjVertex = x) ≤ 1) :
    ∀ v x, ((g.insertEdge s d w).edgeHead v).countP (fun e => e.adjVertex = x) ≤ 1 := by
  intro v x
  by_cases hv : v = s
  · subst hv
    by_cases hok : g.isValidVertex v = true ∧ g.isValidVertex d = true ∧ 0 ≤ w
    · obtain ⟨hs, hd, hw⟩ := hok
      rw [insertEdge_edgeHead_valid g v d w hs hd hw]
      cases hf : findEdgeLoop d (g.edgeHead v) with
      | some i =>
        simp only [countP_setWeight]
        exact h v x
      | none =>
        simp only [List.countP_cons]
        by_cases hx : d = x
        · subst hx
          have h0 : (g.edgeHead v).countP (fun e => e.adjVertex = d) = 0 := by
            rw [List.countP_eq_zero]
            intro e he
            simpa using (findEdgeLoop_eq_none d _).mp hf e he
          simp [h0]
        · have := h v x
          simpa [hx] using this
    · rw [insertEdge_of_invalid g v d w hok]
      exact h v x
  · rw [insertEdge_edgeHead_other g s d w v hv]
    exact h v x

theorem insertEdges_countP_le_one :
    ∀ (calls : List (Int × Int × Int)) (g : Graph),
      (∀ v x, (g.edgeHead v).countP (fun e => e.adjVertex = x) ≤ 1) →
      ∀ v x, ((insertEdges calls g).edgeHead v).countP (fun e => e.adjVertex = x) ≤ 1 := by
  intro calls
  induction calls with
  | nil => intro g h; exact h
  | cons c rest ih =>
    intro g h
    obtain ⟨s, d, w⟩ := c
    exact ih _ (insertEdge_countP_le_one g s d w h)

/-- Claim C14: in a graph obtained from a graph of `n` vertices with empty adjacency lists
by any finite sequence of `insertEdge` calls, with valid or invalid arguments, the list of
every vertex `v` holds at most one edge to each destination `x`. -/
theorem C14_insertEdge_keeps_one_edge_per_destination (n : Int)
    (calls : List (Int × Int × Int)) (v x : Int) :
    ((insertEdges calls (empty n)).edgeHead v).countP (fun e => e.adjVertex = x) ≤ 1 :=
  insertEdges_countP_le_one calls (empty n) (fun _ _ => by simp [empty]) v x

/-- Claim C17: for every graph and every `(source, dest, weight)`, `insertEdge` leaves the
vertex count, every entry of the table `T` and the adjacency list of every vertex other
than `source` as they were. -/
theorem C17_insertEdge_changes_only_source_list (g : Graph) (s d w : Int) :
    (g.insertEdge s d w).size = g.size ∧ (g.insertEdge s d w).T = g.T ∧
      ∀ v, v ≠ s → (g.insertEdge s d w).edgeHead v = g.edgeHead v :=
  ⟨insertEdge_size g s d w, insertEdge_T g s d w,
    fun v hv => insertEdge_edgeHead_other g s d w v hv⟩

/-! ## Rows of vertices without edges -/

theorem sourceLoop_row_of_no_edges (Q : PriorityQueue) (s : Int) :
    ∀ (l : List Int) (g g' : Graph), sourceLoop Q l g = some g' → g.edgeHead s = [] →
      ∀ j, g'.T s j = g.T s j := by
  intro l
  induction l with
  | nil =>
    intro g g' h _ j
    simp only [sourceLoop, Option.some.injEq] at h
    rw [h]
  | cons i rest ih =>
    intro g g' h hempty j
    unfold sourceLoop at h
    split_ifs at h with hi
    · have hsi : s ≠ i := by
        intro e
        rw [e] at hempty
        exact hi hempty
      simp only [Option.bind_eq_some] at h
      obtain ⟨g1, hg1, hg'⟩ := h
      obtain ⟨_, he1, hm⟩ := dijkstrasAlgo_inv Q g g1 i hg1
      rw [ih g1 g' hg' (by rw [he1]; exact hempty) j,
        mainLoop_row Q _ _ _ _ _ _ hm s j hsi]
      simp [startTable, setT, hsi]
    · exact ih g g' h hempty j

/-- Claim C16: for every lawful queue, every graph with any table contents, and every valid
vertex `s` whose adjacency list is empty, `findShortestPath` runs to its end and leaves
every entry `T[s][d]` with `d` in `1..size` in the reset state: not visited, distance
`INT_MAX`, predecessor 0. -/
theorem C16_row_of_vertex_without_edges_is_reset (Q : PriorityQueue) (hQ : Q.Lawful)
    (g : Graph) (s d : Int) (hs : g.isValidVertex s = true) (hd : g.isValidVertex d = true)
    (hempty : g.edgeHead s = []) :
    ∃ g', findShortestPath Q g = some g' ∧ g'.T s d = ⟨false, INT_MAX, 0⟩ := by
  obtain ⟨g', hg'⟩ := findShortestPath_some Q hQ g
  refine ⟨g', hg', ?_⟩
  rw [sourceLoop_row_of_no_edges Q s _ _ g' hg' hempty d, resetTable_T,
    if_pos ⟨(isValidVertex_iff g s).mp hs, (isValidVertex_iff g d).mp hd⟩]

/-- The statement of C16 on the example graph with the isolated vertex 4, started from a
table whose every entry is marked visited at distance 3. -/
theorem C16_row_of_vertex_without_edges_witness :
    ∃ g', findShortestPath listPQ
        ⟨isolatedGraph.size, isolatedGraph.edgeHead, fun _ _ => ⟨true, 3, 2⟩⟩ = some g' ∧
      g'.T 4 1 = ⟨false, INT_MAX, 0⟩ :=
  C16_row_of_vertex_without_edges_is_reset listPQ listPQ_lawful
    ⟨isolatedGraph.size, isolatedGraph.edgeHead, fun _ _ => ⟨true, 3, 2⟩⟩ 4 1
    (by decide) (by decide) (by decide)

/-! ## Path reconstruction for a destination without predecessor -/

/-- The example with the isolated vertex 4: `T[1][4].path` is 0, and `printPath(1, 4)` calls
itself with destination 0, which writes the diagnostic for an invalid destination, and then
prints that 0; the output is not empty. -/
theorem isolatedGraph_printPath_output :
    ((findShortestPath listPQ isolatedGraph).map fun g => (g.T 1 4).path) = some 0 ∧
    ((findShortestPath listPQ isolatedGraph).bind fun g => printPath g 1 2 4) =
      some [Printed.invalidDestination, Printed.vertex 0] ∧
    ((findShortestPath listPQ isolatedGraph).bind fun g => printPath g 1 2 4) ≠ some [] := by
  decide

/-- Claim C13, the program for a destination without predecessor: for every table and every
valid pair `source != dest` with `T[source][dest].path == 0`, `printPath(source, dest)`
returns within two calls.  When the source has no edges it prints nothing; otherwise its
output is not empty: it prints the diagnostic for an invalid destination followed by the
number 0.  In the direct-edge case, `T[source][dest'].path == source`, the output is the
source alone, so the two cases do differ. -/
theorem C13_printPath_without_predecessor (g : Graph) (source dest : Int) (fuel : Nat)
    (hs : g.isValidVertex source = true) (hd : g.isValidVertex dest = true)
    (hne : dest ≠ source) (hp : (g.T source dest).path = 0) :
    printPath g source (fuel + 2) dest =
        (if g.edgeHead source = [] then some []
         else some [Printed.invalidDestination, Printed.vertex 0]) ∧
      ∀ dest', g.isValidVertex dest' = true → dest' ≠ source →
        (g.T source dest').path = source → g.edgeHead source ≠ [] →
        printPath g source (fuel + 2) dest' = some [Printed.vertex source] ∧
          printPath g source (fuel + 2) dest' ≠ printPath g source (fuel + 2) dest := by
  have h0 : g.isValidVertex 0 = false := by simp [isValidVertex]
  have h1 : printPath g source (fuel + 2) dest =
      (if g.edgeHead source = [] then some []
       else some [Printed.invalidDestination, Printed.vertex 0]) := by
    by_cases he : g.edgeHead source = []
    · simp [printPath, hs, hd, he]
    · simp [printPath, hs, hd, he, hne, hp, h0]
  refine ⟨h1, ?_⟩
  intro dest' hd' hne' hp' he
  have h2 : printPath g source (fuel + 2) dest' = some [Printed.vertex source] := by
    simp [printPath, hs, hd', he, hne', hp']
  refine ⟨h2, ?_⟩
  rw [h1, h2, if_neg he]
  intro h
  simp at h

/-- The statement of C13 on the table computed for the example with the isolated vertex 4,
for the pair 1 -> 4. -/
theorem C13_printPath_without_predecessor_witness :
    printPath ((findShortestPath listPQ isolatedGraph).getD isolatedGraph) 1 (0 + 2) 4 =
        (if ((findShortestPath listPQ isolatedGraph).getD isolatedGraph).edgeHead 1 = []
         then some []
         else some [Printed.invalidDestination, Printed.vertex 0]) ∧
      ∀ dest', ((findShortestPath listPQ isolatedGraph).getD isolatedGraph).isValidVertex dest'
          = true → dest' ≠ 1 →
        (((findShortestPath listPQ isolatedGraph).getD isolatedGraph).T 1 dest').path = 1 →
        ((findShortestPath listPQ isolatedGraph).getD isolatedGraph).edgeHead 1 ≠ [] →
        printPath ((findShortestPath listPQ isolatedGraph).getD isolatedGraph) 1 (0 + 2) dest'
            = some [Printed.vertex 1] ∧
          printPath ((findShortestPath listPQ isolatedGraph).getD isolatedGraph) 1 (0 + 2) dest'
            ≠ printPath ((findShortestPath listPQ isolatedGraph).getD isolatedGraph) 1
              (0 + 2) 4 :=
  C13_printPath_without_predecessor
    ((findShortestPath listPQ isolatedGraph).getD isolatedGraph) 1 4 0
    (by decide) (by decide) (by decide) (by decide)

/-! ## The sums of every run with a lawful queue -/

theorem relaxSums_row (source minIndex : Int) :
    ∀ (edges : List EdgeNode) (T1 T2 : Int → Int → Table), T1 source = T2 source →
      relaxSums source minIndex edges T1 = relaxSums source minIndex edges T2 := by
  intro edges
  induction edges with
  | nil => intro T1 T2 _; rfl
  | cons v rest ih =>
    intro T1 T2 hT
    have e1 : T1 source v.adjVertex = T2 source v.adjVertex := congrFun hT _
    have e2 : T1 source minIndex = T2 source minIndex := congrFun hT _
    have hnext := (relaxLoop_sim listPQ listPQ listPQ_lawful listPQ_lawful source minIndex
      [v] T1 T2 [] [] hT (List.Perm.refl _)).1
    unfold relaxSums
    rw [e1, e2]
    split_ifs
    · rw [ih _ _ hnext]
    · exact ih T1 T2 hT

theorem mainLoopSums_some (Q : PriorityQueue) (hQ : Q.Lawful) (edgeHead : Int → List EdgeNode)
    (source : Int) :
    ∀ (n : Nat) (T : Int → Int → Table) (pq : List AdjacentVertex),
      n ≤ pq.length → ∃ sums, mainLoopSums Q edgeHead source n T pq = some sums := by
  intro n
  induction n with
  | zero => intro T pq _; exact ⟨[], rfl⟩
  | succ n ih =>
    intro T pq hlen
    have hne : pq ≠ [] := by
      intro h
      rw [h] at hlen
      simp at hlen
    obtain ⟨a, r, hpop⟩ := hQ.pop_some pq hne
    have hr : n ≤ r.length := by
      have := (hQ.pop_perm pq a r hpop).length_eq
      simp only [List.length_cons] at this
      omega
    unfold mainLoopSums
    rw [hpop]
    simp only
    split_ifs
    · obtain ⟨later, hl⟩ := ih
        (relaxLoop Q source a.vertexIndex (edgeHead a.vertexIndex)
          (setT T source a.vertexIndex
            ⟨true, (T source a.vertexIndex).dist, (T source a.vertexIndex).path⟩) r).1
        (relaxLoop Q source a.vertexIndex (edgeHead a.vertexIndex)
          (setT T source a.vertexIndex
            ⟨true, (T source a.vertexIndex).dist, (T source a.vertexIndex).path⟩) r).2
        (le_trans hr (relaxLoop_length Q hQ source _ _ _ _))
      rw [hl]
      exact ⟨_, rfl⟩
    · exact ih _ _ hr

/-- The loop that collects the sums pops the same entries as `mainLoop`: the one ends at an
empty queue exactly when the other does. -/
theorem mainLoopSums_isSome (Q : PriorityQueue) (edgeHead : Int → List EdgeNode)
    (source : Int) :
    ∀ (n : Nat) (T : Int → Int → Table) (pq : List AdjacentVertex),
      (mainLoopSums Q edgeHead source n T pq).isSome =
        (mainLoop Q edgeHead source n T pq).isSome := by
  intro n
  induction n with
  | zero => intro T pq; rfl
  | succ n ih =>
    intro T pq
    unfold mainLoopSums mainLoop
    cases Q.pop pq with
    | none => rfl
    | some p =>
      obtain ⟨a, r⟩ := p
      simp only
      split_ifs
      · rw [Option.isSome_map']
        exact ih _ _
      · exact ih _ _

theorem dijkstraSums_some (Q : PriorityQueue) (hQ : Q.Lawful) (g : Graph) (source : Int) :
    ∃ sums, dijkstraSums Q g source = some sums :=
  mainLoopSums_some Q hQ g.edgeHead source _ _ _ (startQueue_length Q hQ _ _)

theorem sourceLoopSums_some (Q : PriorityQueue) (hQ : Q.Lawful) :
    ∀ (l : List Int) (g : Graph), ∃ sums, sourceLoopSums Q l g = some sums := by
  intro l
  induction l with
  | nil => intro g; exact ⟨[], rfl⟩
  | cons i rest ih =>
    intro g
    unfold sourceLoopSums
    split_ifs
    · obtain ⟨sums, hs⟩ := dijkstraSums_some Q hQ g i
      obtain ⟨T', _, hg1⟩ := dijkstrasAlgo_some Q hQ g i
      obtain ⟨later, hl⟩ := ih ⟨g.size, g.edgeHead, T'⟩
      rw [hs, hg1]
      simp only
      rw [hl]
      exact ⟨_, rfl⟩
    · exact ih g

theorem allRunsSums_sound (Q : PriorityQueue) (hQ : Q.Lawful) (edgeHead : Int → List EdgeNode)
    (source : Int) (P : List (Int × Int) → Bool) :
    ∀ (n : Nat) (T T0 : Int → Int → Table) (pq pq0 : List AdjacentVertex)
      (sums : List (Int × Int)),
      T source = T0 source → pq.Perm pq0 →
      allRunsSums edgeHead source P n T0 pq0 sums = true →
      ∃ later, mainLoopSums Q edgeHead source n T pq = some later ∧
        P (sums ++ later) = true := by
  intro n
  induction n with
  | zero =>
    intro T T0 pq pq0 sums _ _ h
    refine ⟨[], rfl, ?_⟩
    rw [List.append_nil]
    exact h
  | succ n ih =>
    intro T T0 pq pq0 sums hT hperm h
    unfold allRunsSums at h
    rw [Bool.and_eq_true, List.all_eq_true] at h
    obtain ⟨hne0, hall⟩ := h
    have hne : pq ≠ [] := by
      intro e
      rw [e] at hperm
      rw [List.nil_perm.mp hperm] at hne0
      simp at hne0
    obtain ⟨a, r, hpop⟩ := hQ.pop_some pq hne
    have hpr := hQ.pop_perm pq a r hpop
    have ha0 : a ∈ pq0 := hperm.mem_iff.mp (hpr.mem_iff.mpr (List.mem_cons_self _ _))
    have hmin0 : ∀ b ∈ pq0, a.dist ≤ b.dist :=
      fun b hb => hQ.pop_min pq a r hpop b (hperm.mem_iff.mpr hb)
    have hbody := hall a (mem_minEntries pq0 a ha0 hmin0)
    have hr : r.Perm (pq0.erase a) := by
      have := (hpr.symm.trans hperm).erase a
      rw [List.erase_cons_head] at this
      exact this
    have e1 : T source a.vertexIndex = T0 source a.vertexIndex := congrFun hT _
    unfold mainLoopSums
    rw [hpop]
    simp only
    rw [e1]
    by_cases hc : (T0 source a.vertexIndex).visited = false
    · rw [if_pos hc] at hbody ⊢
      simp only at hbody
      have hT1 : setT T source a.vertexIndex
            ⟨true, (T0 source a.vertexIndex).dist, (T0 source a.vertexIndex).path⟩ source =
          setT T0 source a.vertexIndex
            ⟨true, (T0 source a.vertexIndex).dist, (T0 source a.vertexIndex).path⟩ source := by
        funext j
        by_cases hj : j = a.vertexIndex
        · simp [setT, hj]
        · simp only [setT, hj, and_false, if_false]
          exact congrFun hT j
      obtain ⟨hrow, hq⟩ := relaxLoop_sim Q listPQ hQ listPQ_lawful source a.vertexIndex
        (edgeHead a.vertexIndex) _ _ r (pq0.erase a) hT1 hr
      obtain ⟨later, hl, hP⟩ := ih _ _ _ _ _ hrow hq hbody
      rw [hl]
      refine ⟨_, rfl, ?_⟩
      rw [relaxSums_row source a.vertexIndex (edgeHead a.vertexIndex) _ _ hT1,
        ← List.append_assoc]
      exact hP
    · rw [if_neg hc] at hbody ⊢
      exact ih _ _ _ _ _ hT hr hbody

theorem sourceLoopSums_row (Q : PriorityQueue) (s : Int) :
    ∀ (l : List Int) (g : Graph) (sums : List (Int × Int)),
      sourceLoopSums Q l g = some sums → s ∈ l → l.Nodup → g.edgeHead s ≠ [] →
      ∃ Tb later, Tb s = g.T s ∧
        mainLoopSums Q g.edgeHead s (g.size - 1).toNat (startTable Tb s)
          (startQueue Q g.size s) = some later ∧
        ∀ p ∈ later, p ∈ sums := by
  intro l
  induction l with
  | nil => intro g sums _ hs; simp at hs
  | cons i rest ih =>
    intro g sums h hs hnd hne
    obtain ⟨hi, hrest⟩ := List.nodup_cons.mp hnd
    unfold sourceLoopSums at h
    by_cases hsi : s = i
    · subst hsi
      rw [if_pos hne] at h
      cases hd : dijkstraSums Q g s with
      | none => rw [hd] at h; simp at h
      | some first =>
        cases hg : dijkstrasAlgo Q g s with
        | none => rw [hd, hg] at h; simp at h
        | some g1 =>
          rw [hd, hg] at h
          simp only [Option.map_eq_some'] at h
          obtain ⟨later, _, rfl⟩ := h
          exact ⟨g.T, first, rfl, hd, fun p hp => List.mem_append_left _ hp⟩
    · have hsr : s ∈ rest := by
        rcases List.mem_cons.mp hs with e | e
        · exact absurd e hsi
        · exact e
      split_ifs at h
      · cases hd : dijkstraSums Q g i with
        | none => rw [hd] at h; simp at h
        | some first =>
          cases hg : dijkstrasAlgo Q g i with
          | none => rw [hd, hg] at h; simp at h
          | some g1 =>
            rw [hd, hg] at h
            simp only [Option.map_eq_some'] at h
            obtain ⟨later, hlater, rfl⟩ := h
            obtain ⟨hs1, he1, hm⟩ := dijkstrasAlgo_inv Q g g1 i hg
            obtain ⟨Tb, ls, hTb, hmain, hsub⟩ :=
              ih g1 later hlater hsr hrest (by rw [he1]; exact hne)
            rw [hs1, he1] at hmain
            refine ⟨Tb, ls, ?_, hmain, fun p hp => List.mem_append_right _ (hsub p hp)⟩
            rw [hTb]
            funext j
            rw [mainLoop_row Q _ _ _ _ _ _ hm s j hsi]
            simp [startTable, setT, hsi]
      · exact ih g sums h hsr hrest hne

/-- What `allRunsSumsFrom` establishes: when the sums of every run from `source` that some
choice of `top()` among equal distances allows satisfy `P`, then with every lawful queue
`findShortestPath` evaluates, among its sums, a list of sums that satisfies `P`. -/
theorem findShortestPathSums_row (Q : PriorityQueue) (hQ : Q.Lawful) (g : Graph) (s : Int)
    (P : List (Int × Int) → Bool) (hs : g.isValidVertex s = true) (hne : g.edgeHead s ≠ [])
    (h : allRunsSumsFrom g s P = true) :
    ∃ sums later, findShortestPathSums Q g = some sums ∧ P later = true ∧
      ∀ p ∈ later, p ∈ sums := by
  obtain ⟨sums, hsums⟩ := sourceLoopSums_some Q hQ (vertexIds g.size) (resetTable g)
  have hmem : s ∈ vertexIds (resetTable g).size :=
    (mem_vertexIds _ _).mpr ((isValidVertex_iff g s).mp hs)
  obtain ⟨Tb, later, hTb, hmain, hsub⟩ :=
    sourceLoopSums_row Q s _ _ sums hsums hmem (vertexIds_nodup _) hne
  have hstart : startTable Tb s s = startTable (resetTable g).T s s := by
    funext j
    simp only [startTable, setT]
    rw [hTb]
  obtain ⟨later', hl', hP⟩ := allRunsSums_sound Q hQ g.edgeHead s P (g.size - 1).toNat
    (startTable Tb s) (startTable (resetTable g).T s) (startQueue Q g.size s)
    (startQueue listPQ g.size s) [] hstart (startQueue_sim Q listPQ hQ listPQ_lawful _ _) h
  have hmain' : mainLoopSums Q g.edgeHead s (g.size - 1).toNat (startTable Tb s)
      (startQueue Q g.size s) = some later := hmain
  rw [hl'] at hmain'
  have heq : later' = later := Option.some.inj hmain'
  rw [List.nil_append, heq] at hP
  exact ⟨sums, later, hsums, hP, hsub⟩

/-- Claim C15, the program on `islandGraph` (3 vertices, weights 4, 1, 1), with any lawful
queue: among the sums `T[source][v].dist + weight` that `findShortestPath` evaluates there
is one with `T[1][v].dist = INT_MAX` and a weight `>= 1`, so its value is above `INT_MAX`,
outside the range of `int`.  It is evaluated when the second iteration from source 1 pops an
unvisited entry at distance `INT_MAX` and relaxes the edge of that vertex. -/
theorem C15_sum_with_infinite_distance_overflows (Q : PriorityQueue) (hQ : Q.Lawful) :
    ∃ sums, findShortestPathSums Q islandGraph = some sums ∧
      ∃ p ∈ sums, p.1 = INT_MAX ∧ 1 ≤ p.2 ∧ INT_MAX < p.1 + p.2 := by
  obtain ⟨sums, later, hsums, hP, hsub⟩ := findShortestPathSums_row Q hQ islandGraph 1
    (fun l => l.any fun p => decide (p.1 = INT_MAX ∧ 1 ≤ p.2 ∧ INT_MAX < p.1 + p.2))
    (by decide) (by decide) (by decide)
  rw [List.any_eq_true] at hP
  obtain ⟨p, hp, hdec⟩ := hP
  exact ⟨sums, hsums, p, hsub p hp, of_decide_eq_true hdec⟩

/-- The statement of C15 with the list queue. -/
theorem C15_sum_with_infinite_distance_witness :
    ∃ sums, findShortestPathSums listPQ islandGraph = some sums ∧
      ∃ p ∈ sums, p.1 = INT_MAX ∧ 1 ≤ p.2 ∧ INT_MAX < p.1 + p.2 :=
  C15_sum_with_infinite_distance_overflows listPQ listPQ_lawful

/-! ## Visited vertices and stored distances -/

/-- Claim C18, the program on `staleGraph` (5 vertices), with any lawful queue: the run from
source 1 has four iterations, the fourth pops the stale entry `(3, 5)` and marks nothing,
and `findShortestPath` ends with 3 vertices marked visited in row 1, not 4. -/
theorem C18_stale_pop_marks_no_vertex (Q : PriorityQueue) (hQ : Q.Lawful) :
    ∃ g', findShortestPath Q staleGraph = some g' ∧ g'.size = 5 ∧
      visitedCount g'.size (g'.T 1) = 3 ∧ (g'.T 1 4).visited = false ∧
      (g'.T 1 5).visited = false := by
  obtain ⟨g', hg', hsz, _, hP⟩ := findShortestPath_row Q hQ staleGraph 1
    (fun row => decide (visitedCount 5 row = 3 ∧ (row 4).visited = false ∧
      (row 5).visited = false)) (by decide) (by decide) (by decide)
  have h5 : g'.size = 5 := hsz
  obtain ⟨h1, h2, h3⟩ := of_decide_eq_true hP
  exact ⟨g', hg', h5, by rw [h5]; exact h1, h2, h3⟩

/-- The statement of C18 with the list queue. -/
theorem C18_stale_pop_witness :
    ∃ g', findShortestPath listPQ staleGraph = some g' ∧ g'.size = 5 ∧
      visitedCount g'.size (g'.T 1) = 3 ∧ (g'.T 1 4).visited = false ∧
      (g'.T 1 5).visited = false :=
  C18_stale_pop_marks_no_vertex listPQ listPQ_lawful

/-- Claim C19, the program on `ringGraph` (weights 4, 1, 1, 1), with any lawful queue:
vertex 1 has the loop 1 -> 1 as its only edge, so no ring vertex is reachable from 1; yet
`findShortestPath` ends with a ring vertex marked visited in row 1 at the finite distance
`INT_MIN`, which is negative and the weight of no path. -/
theorem C19_visited_vertex_with_wrapped_distance (Q : PriorityQueue) (hQ : Q.Lawful) :
    ∃ g', findShortestPath Q ringGraph = some g' ∧ ringGraph.edgeHead 1 = [⟨1, 4⟩] ∧
      ∃ v ∈ [(2 : Int), 3, 4], (g'.T 1 v).visited = true ∧ (g'.T 1 v).dist = INT_MIN ∧
        (g'.T 1 v).dist ≠ INT_MAX ∧ (g'.T 1 v).dist < 0 := by
  obtain ⟨g', hg', _, _, hP⟩ := findShortestPath_row Q hQ ringGraph 1
    (fun row => [(2 : Int), 3, 4].any fun v =>
      decide ((row v).visited = true ∧ (row v).dist = INT_MIN))
    (by decide) (by decide) (by decide)
  rw [List.any_eq_true] at hP
  obtain ⟨v, hv, hdec⟩ := hP
  obtain ⟨h1, h2⟩ := of_decide_eq_true hdec
  refine ⟨g', hg', by decide, v, hv, h1, h2, ?_, ?_⟩
  · rw [h2]; decide
  · rw [h2]; decide

/-- The statement of C19 with the list queue. -/
theorem C19_visited_vertex_witness :
    ∃ g', findShortestPath listPQ ringGraph = some g' ∧ ringGraph.edgeHead 1 = [⟨1, 4⟩] ∧
      ∃ v ∈ [(2 : Int), 3, 4], (g'.T 1 v).visited = true ∧ (g'.T 1 v).dist = INT_MIN ∧
        (g'.T 1 v).dist ≠ INT_MAX ∧ (g'.T 1 v).dist < 0 :=
  C19_visited_vertex_with_wrapped_distance listPQ listPQ_lawful

/-- Claim C20, the program on `islandGraph` (weights 4, 1, 1), with any lawful queue:
`findShortestPath` ends with `T[1][2].dist` or `T[1][3].dist` equal to `INT_MIN`: not the
infinity sentinel, negative, and so the weight of no path of a graph whose weights are
`>= 0`; vertex 1 has the loop 1 -> 1 as its only edge and reaches neither vertex. -/
theorem C20_stored_distance_negative (Q : PriorityQueue) (hQ : Q.Lawful) :
    ∃ g', findShortestPath Q islandGraph = some g' ∧ islandGraph.edgeHead 1 = [⟨1, 4⟩] ∧
      ∃ d ∈ [(2 : Int), 3], (g'.T 1 d).dist ≠ INT_MAX ∧ (g'.T 1 d).dist < 0 ∧
        (g'.T 1 d).dist = INT_MIN := by
  obtain ⟨g', hg', _, _, hP⟩ := findShortestPath_row Q hQ islandGraph 1
    (fun row => [(2 : Int), 3].any fun d => decide ((row d).dist = INT_MIN))
    (by decide) (by decide) (by decide)
  rw [List.any_eq_true] at hP
  obtain ⟨d, hd, hdec⟩ := hP
  have h1 := of_decide_eq_true hdec
  refine ⟨g', hg', by decide, d, hd, ?_, ?_, h1⟩
  · rw [h1]; decide
  · rw [h1]; decide

/-- The statement of C20 with the list queue. -/
theorem C20_stored_distance_witness :
    ∃ g', findShortestPath listPQ islandGraph = some g' ∧ islandGraph.edgeHead 1 = [⟨1, 4⟩] ∧
      ∃ d ∈ [(2 : Int), 3], (g'.T 1 d).dist ≠ INT_MAX ∧ (g'.T 1 d).dist < 0 ∧
        (g'.T 1 d).dist = INT_MIN :=
  C20_stored_distance_negative listPQ listPQ_lawful

/-! ## The queue is never empty at a pop -/

theorem popLengths_pos (Q : PriorityQueue) (hQ : Q.Lawful) (edgeHead : Int → List EdgeNode)
    (source : Int) :
    ∀ (n : Nat) (T : Int → Int → Table) (pq : List AdjacentVertex), n ≤ pq.length →
      (popLengths Q edgeHead source n T pq).length = n ∧
        ∀ k ∈ popLengths Q edgeHead source n T pq, 1 ≤ k := by
  intro n
  induction n with
  | zero => intro T pq _; simp [popLengths]
  | succ n ih =>
    intro T pq hlen
    have hne : pq ≠ [] := by
      intro h
      rw [h] at hlen
      simp at hlen
    obtain ⟨a, r, hpop⟩ := hQ.pop_some pq hne
    have hr : n ≤ r.length := by
      have := (hQ.pop_perm pq a r hpop).length_eq
      simp only [List.length_cons] at this
      omega
    unfold popLengths
    rw [hpop]
    simp only
    split_ifs
    · obtain ⟨h1, h2⟩ := ih
        (relaxLoop Q source a.vertexIndex (edgeHead a.vertexIndex)
          (setT T source a.vertexIndex
            ⟨true, (T source a.vertexIndex).dist, (T source a.vertexIndex).path⟩) r).1
        (relaxLoop Q source a.vertexIndex (edgeHead a.vertexIndex)
          (setT T source a.vertexIndex
            ⟨true, (T source a.vertexIndex).dist, (T source a.vertexIndex).path⟩) r).2
        (le_trans hr (relaxLoop_length Q hQ source _ _ _ _))
      refine ⟨by rw [List.length_cons, h1], ?_⟩
      intro k hk
      rcases List.mem_cons.mp hk with rfl | hk'
      · omega
      · exact h2 k hk'
    · obtain ⟨h1, h2⟩ := ih T r hr
      refine ⟨by rw [List.length_cons, h1], ?_⟩
      intro k hk
      rcases List.mem_cons.mp hk with rfl | hk'
      · omega
      · exact h2 k hk'

/-- Claim C23: for every lawful queue, every graph, any table contents and every source,
`dijkstrasAlgo` calls `top()` exactly `size - 1` times (no time when `size < 1`), each time
on a queue that holds at least one entry, and so it runs to its end. -/
theorem C23_queue_not_empty_at_any_pop (Q : PriorityQueue) (hQ : Q.Lawful) (g : Graph)
    (source : Int) :
    (popLengths Q g.edgeHead source (g.size - 1).toNat (startTable g.T source)
        (startQueue Q g.size source)).length = (g.size - 1).toNat ∧
      (∀ k ∈ popLengths Q g.edgeHead source (g.size - 1).toNat (startTable g.T source)
        (startQueue Q g.size source), 1 ≤ k) ∧
      ∃ g', dijkstrasAlgo Q g source = some g' := by
  obtain ⟨h1, h2⟩ := popLengths_pos Q hQ g.edgeHead source (g.size - 1).toNat
    (startTable g.T source) (startQueue Q g.size source) (startQueue_length Q hQ _ _)
  obtain ⟨T', _, hT'⟩ := dijkstrasAlgo_some Q hQ g source
  exact ⟨h1, h2, _, hT'⟩

/-- The statement of C23 on the five-vertex graph with the stale pop, source 1. -/
theorem C23_queue_not_empty_witness :
    (popLengths listPQ staleGraph.edgeHead 1 (staleGraph.size - 1).toNat
        (startTable staleGraph.T 1) (startQueue listPQ staleGraph.size 1)).length =
        (staleGraph.size - 1).toNat ∧
      (∀ k ∈ popLengths listPQ staleGraph.edgeHead 1 (staleGraph.size - 1).toNat
        (startTable staleGraph.T 1) (startQueue listPQ staleGraph.size 1), 1 ≤ k) ∧
      ∃ g', dijkstrasAlgo listPQ staleGraph 1 = some g' :=
  C23_queue_not_empty_at_any_pop listPQ listPQ_lawful staleGraph 1

/-! ## Stored edges lead to valid vertices -/

theorem mem_setWeight (w : Int) :
    ∀ (l : List EdgeNode) (i : Nat) (e : EdgeNode), e ∈ setWeight w l i →
      e ∈ l ∨ (e.weight = w ∧ ∃ e' ∈ l, e'.adjVertex = e.adjVertex) := by
  intro l
  induction l with
  | nil => intro i e h; simp [setWeight] at h
  | cons a l ih =>
    intro i e h
    cases i with
    | zero =>
      simp only [setWeight, List.mem_cons] at h
      rcases h with rfl | h
      · exact Or.inr ⟨rfl, a, List.mem_cons_self _ _, rfl⟩
      · exact Or.inl (List.mem_cons_of_mem _ h)
    | succ i =>
      simp only [setWeight, List.mem_cons] at h
      rcases h with rfl | h
      · exact Or.inl (List.mem_cons_self _ _)
      · rcases ih i e h with h1 | ⟨h1, e', he', h2⟩
        · exact Or.inl (List.mem_cons_of_mem _ h1)
        · exact Or.inr ⟨h1, e', List.mem_cons_of_mem _ he', h2⟩

theorem insertEdge_edges_valid (g : Graph) (s d w : Int)
    (h : ∀ v, ∀ e ∈ g.edgeHead v, 1 ≤ e.adjVertex ∧ e.adjVertex ≤ g.size ∧ 0 ≤ e.weight) :
    ∀ v, ∀ e ∈ (g.insertEdge s d w).edgeHead v,
      1 ≤ e.adjVertex ∧ e.adjVertex ≤ (g.insertEdge s d w).size ∧ 0 ≤ e.weight := by
  intro v e he
  rw [insertEdge_size]
  by_cases hv : v = s
  · subst hv
    by_cases hok : g.isValidVertex v = true ∧ g.isValidVertex d = true ∧ 0 ≤ w
    · obtain ⟨hs, hd, hw⟩ := hok
      rw [insertEdge_edgeHead_valid g v d w hs hd hw] at he
      cases hf : findEdgeLoop d (g.edgeHead v) with
      | some i =>
        rw [hf] at he
        rcases mem_setWeight w _ i e he with h1 | ⟨h1, e', he', h2⟩
        · exact h v e h1
        · obtain ⟨a, b, _⟩ := h v e' he'
          rw [h2] at a b
          exact ⟨a, b, by rw [h1]; exact hw⟩
      | none =>
        rw [hf] at he
        rcases List.mem_cons.mp he with rfl | h1
        · obtain ⟨a, b⟩ := (isValidVertex_iff g d).mp hd
          exact ⟨a, b, hw⟩
        · exact h v e h1
    · rw [insertEdge_of_invalid g v d w hok] at he
      exact h v e he
  · rw [insertEdge_edgeHead_other g s d w v hv] at he
    exact h v e he

theorem insertEdges_edges_valid :
    ∀ (calls : List (Int × Int × Int)) (g : Graph),
      (∀ v, ∀ e ∈ g.edgeHead v, 1 ≤ e.adjVertex ∧ e.adjVertex ≤ g.size ∧ 0 ≤ e.weight) →
      (insertEdges calls g).size = g.size ∧
        ∀ v, ∀ e ∈ (insertEdges calls g).edgeHead v,
          1 ≤ e.adjVertex ∧ e.adjVertex ≤ g.size ∧ 0 ≤ e.weight := by
  intro calls
  induction calls with
  | nil => intro g h; exact ⟨rfl, h⟩
  | cons c rest ih =>
    intro g h
    obtain ⟨s, d, w⟩ := c
    have := ih (g.insertEdge s d w) (insertEdge_edges_valid g s d w h)
    rw [insertEdge_size] at this
    exact this

/-- Claim C24: in a graph obtained from a graph of `n` vertices with empty adjacency lists
by any finite sequence of `insertEdge` calls, the vertex count is still `n` and every edge
`e` stored in the list of any vertex `v` has its destination in `[1, n]` and a weight
`>= 0`; the index `w = v->adjVertex` that `dijkstrasAlgo` takes from a list is one of these
destinations. -/
theorem C24_stored_edges_have_valid_destination (n : Int) (calls : List (Int × Int × Int))
    (v : Int) (e : EdgeNode) (he : e ∈ (insertEdges calls (empty n)).edgeHead v) :
    (insertEdges calls (empty n)).size = n ∧
      1 ≤ e.adjVertex ∧ e.adjVertex ≤ n ∧ 0 ≤ e.weight := by
  obtain ⟨h1, h2⟩ := insertEdges_edges_valid calls (empty n)
    (fun v e he => by simp [empty] at he)
  exact ⟨h1, h2 v e he⟩

/-- The statement of C24 after three valid calls and three calls with an invalid
destination, an invalid source and a negative weight. -/
theorem C24_stored_edges_witness :
    (insertEdges [(1, 2, 5), (2, 3, 2), (1, 3, 10), (1, 7, 1), (0, 1, 1), (2, 1, -4)]
        (empty 3)).size = 3 ∧
      1 ≤ (⟨3, 10⟩ : EdgeNode).adjVertex ∧ (⟨3, 10⟩ : EdgeNode).adjVertex ≤ 3 ∧
      0 ≤ (⟨3, 10⟩ : EdgeNode).weight :=
  C24_stored_edges_have_valid_destination 3
    [(1, 2, 5), (2, 3, 2), (1, 3, 10), (1, 7, 1), (0, 1, 1), (2, 1, -4)] 1 ⟨3, 10⟩
    (by decide)

/-! ## Predecessor links are backed by edges -/

theorem linked_mark (edgeHead : Int → List EdgeNode) (N source a : Int)
    (T : Int → Int → Table) (h : Linked edgeHead N (T source)) :
    Linked edgeHead N
      (setT T source a ⟨true, (T source a).dist, (T source a).path⟩ source) := by
  have hpath : ∀ j, (setT T source a ⟨true, (T source a).dist, (T source a).path⟩
      source j).path = (T source j).path := by
    intro j
    by_cases hj : j = a
    · subst hj; simp [setT]
    · simp [setT, hj]
  have hdist : ∀ j, (setT T source a ⟨true, (T source a).dist, (T source a).path⟩
      source j).dist = (T source j).dist := by
    intro j
    by_cases hj : j = a
    · subst hj; simp [setT]
    · simp [setT, hj]
  have hvis : ∀ j, (T source j).visited = true →
      (setT T source a ⟨true, (T source a).dist, (T source a).path⟩
        source j).visited = true := by
    intro j hv
    by_cases hj : j = a
    · subst hj; simp [setT]
    · simp only [setT, hj, and_false, if_false]; exact hv
  intro w h1 h2 hp
  rw [hpath] at hp ⊢
  obtain ⟨hv, e, he, hew, hd⟩ := h w h1 h2 hp
  refine ⟨hvis _ hv, e, he, hew, ?_⟩
  rw [hdist, hdist]
  exact hd

theorem relaxLoop_linked (Q : PriorityQueue) (edgeHead : Int → List EdgeNode)
    (N source minIndex : Int) :
    ∀ (edges : List EdgeNode) (T : Int → Int → Table) (pq : List AdjacentVertex),
      (∀ e ∈ edges, e ∈ edgeHead minIndex) → (T source minIndex).visited = true →
      Linked edgeHead N (T source) →
      Linked edgeHead N ((relaxLoop Q source minIndex edges T pq).1 source) := by
  intro edges
  induction edges with
  | nil => intro T pq _ _ h; exact h
  | cons v rest ih =>
    intro T pq hedges hm h
    have hrest : ∀ e ∈ rest, e ∈ edgeHead minIndex :=
      fun e he => hedges e (List.mem_cons_of_mem _ he)
    unfold relaxLoop
    split_ifs with hc
    · have hwm : minIndex ≠ v.adjVertex := by
        intro e
        rw [← e, hm] at hc
        exact Bool.noConfusion hc.1
      have hmsame : setT T source v.adjVertex
          ⟨(T source v.adjVertex).visited, addInt (T source minIndex).dist v.weight, minIndex⟩
          source minIndex = T source minIndex := setT_col _ _ _ _ _ _ hwm
      simp only
      apply ih _ _ hrest
      · rw [hmsame]; exact hm
      · intro w h1 h2 hp
        by_cases hw : w = v.adjVertex
        · subst hw
          rw [setT_same] at hp ⊢
          simp only at hp ⊢
          rw [hmsame]
          exact ⟨hm, v, hedges v (List.mem_cons_self _ _), rfl, rfl⟩
        · have hwsame : setT T source v.adjVertex
              ⟨(T source v.adjVertex).visited, addInt (T source minIndex).dist v.weight,
                minIndex⟩ source w = T source w := setT_col _ _ _ _ _ _ hw
          rw [hwsame] at hp ⊢
          obtain ⟨hv, e, he, hew, hd⟩ := h w h1 h2 hp
          have hpne : (T source w).path ≠ v.adjVertex := by
            intro e'
            rw [e', hc.1] at hv
            exact Bool.noConfusion hv
          have hpsame : setT T source v.adjVertex
              ⟨(T source v.adjVertex).visited, addInt (T source minIndex).dist v.weight,
                minIndex⟩ source (T source w).path = T source (T source w).path :=
            setT_col _ _ _ _ _ _ hpne
          rw [hpsame]
          exact ⟨hv, e, he, hew, hd⟩
    · exact ih T pq hrest hm h

theorem mainLoop_linked (Q : PriorityQueue) (edgeHead : Int → List EdgeNode)
    (N source : Int) :
    ∀ (n : Nat) (T : Int → Int → Table) (pq : List AdjacentVertex) (T' : Int → Int → Table),
      mainLoop Q edgeHead source n T pq = some T' →
      Linked edgeHead N (T source) → Linked edgeHead N (T' source) := by
  intro n
  induction n with
  | zero =>
    intro T pq T' h hl
    simp only [mainLoop, Option.some.injEq] at h
    rw [← h]
    exact hl
  | succ n ih =>
    intro T pq T' h hl
    unfold mainLoop at h
    cases hpop : Q.pop pq with
    | none => rw [hpop] at h; exact Option.noConfusion h
    | some p =>
      obtain ⟨a, r⟩ := p
      rw [hpop] at h
      simp only at h
      split_ifs at h
      · refine ih _ _ T' h ?_
        apply relaxLoop_linked Q edgeHead N source a.vertexIndex _ _ _ (fun e he => he)
        · rw [setT_same]
        · exact linked_mark edgeHead N source a.vertexIndex T hl
      · exact ih _ _ T' h hl

/-- After `findShortestPath` every row of a valid source is `Linked`. -/
theorem findShortestPath_linked (Q : PriorityQueue) (g g' : Graph) (s : Int)
    (hs : g.isValidVertex s = true) (h : findShortestPath Q g = some g') :
    Linked g.edgeHead g.size (g'.T s) := by
  have hsr := (isValidVertex_iff g s).mp hs
  by_cases hne : g.edgeHead s = []
  · intro w h1 h2 hp
    exfalso
    apply hp
    rw [sourceLoop_row_of_no_edges Q s _ _ g' h hne w, resetTable_T, if_pos ⟨hsr, h1, h2⟩]
  · have hmem : s ∈ vertexIds (resetTable g).size := (mem_vertexIds _ _).mpr hsr
    obtain ⟨Tb, T', hTb, hmain, hrow⟩ :=
      sourceLoop_row Q s _ _ g' h hmem (vertexIds_nodup _) hne
    rw [hrow]
    refine mainLoop_linked Q g.edgeHead g.size s _ _ _ T' hmain ?_
    intro w h1 h2 hp
    exfalso
    apply hp
    have : (startTable Tb s s w).path = (Tb s w).path := by
      by_cases hw : w = s
      · subst hw; simp [startTable, setT]
      · simp [startTable, setT, hw]
    rw [this, hTb, resetTable_T, if_pos ⟨hsr, h1, h2⟩]

/-- Claim C21: for every lawful queue, every graph with any table contents, and every valid
source `s` and vertex `w` in `1..size`: `findShortestPath` runs to its end, and when it
leaves `T[s][w].path = v != 0`, then `v` is marked visited in row `s`, the adjacency list
of `v` holds an edge to `w` of some weight `c`, and `T[s][w].dist` is the 32-bit sum of
`T[s][v].dist` and `c`. -/
theorem C21_predecessor_is_visited_and_linked_by_edge (Q : PriorityQueue) (hQ : Q.Lawful)
    (g : Graph) (s w : Int) (hs : g.isValidVertex s = true) (hw : g.isValidVertex w = true) :
    ∃ g', findShortestPath Q g = some g' ∧
      ((g'.T s w).path ≠ 0 →
        (g'.T s (g'.T s w).path).visited = true ∧
          ∃ e ∈ g.edgeHead (g'.T s w).path, e.adjVertex = w ∧
            (g'.T s w).dist = addInt (g'.T s (g'.T s w).path).dist e.weight) := by
  obtain ⟨g', hg'⟩ := findShortestPath_some Q hQ g
  obtain ⟨h1, h2⟩ := (isValidVertex_iff g w).mp hw
  exact ⟨g', hg', findShortestPath_linked Q g g' s hs hg' w h1 h2⟩

/-- The statement of C21 on the example graph, for the entry `T[1][3]`, whose predecessor
is 2. -/
theorem C21_predecessor_witness :
    ∃ g', findShortestPath listPQ exampleGraph = some g' ∧
      ((g'.T 1 3).path ≠ 0 →
        (g'.T 1 (g'.T 1 3).path).visited = true ∧
          ∃ e ∈ exampleGraph.edgeHead (g'.T 1 3).path, e.adjVertex = 3 ∧
            (g'.T 1 3).dist = addInt (g'.T 1 (g'.T 1 3).path).dist e.weight) :=
  C21_predecessor_is_visited_and_linked_by_edge listPQ listPQ_lawful exampleGraph 1 3
    (by decide) (by decide)

/-! ## The predecessor walk stops -/

theorem endsWithin_of_stop (N source : Int) (row : Int → Table) (k : Nat) (d : Int)
    (h : d = source ∨ ¬ (1 ≤ d ∧ d ≤ N)) : EndsWithin N source row k d := by
  cases k with
  | zero => exact h
  | succ k =>
    rcases h with h | h
    · exact Or.inl h
    · exact Or.inr (Or.inl h)

theorem endsWithin_succ (N source : Int) (row : Int → Table) :
    ∀ (k : Nat) (d : Int), EndsWithin N source row k d → EndsWithin N source row (k + 1) d := by
  intro k
  induction k with
  | zero =>
    intro d h
    exact endsWithin_of_stop N source row 1 d h
  | succ k ih =>
    intro d h
    rcases h with h | h | h
    · exact Or.inl h
    · exact Or.inr (Or.inl h)
    · exact Or.inr (Or.inr (ih _ h))

theorem endsWithin_le (N source : Int) (row : Int → Table) (d : Int) :
    ∀ (k k' : Nat), k ≤ k' → EndsWithin N source row k d → EndsWithin N source row k' d := by
  intro k k' hk h
  induction hk with
  | refl => exact h
  | step _ ih => exact endsWithin_succ N source row _ d ih

theorem endsWithin_congr_path (N source : Int) (r r' : Int → Table)
    (hp : ∀ j, (r' j).path = (r j).path) :
    ∀ (k : Nat) (d : Int), EndsWithin N source r k d → EndsWithin N source r' k d := by
  intro k
  induction k with
  | zero => intro d h; exact h
  | succ k ih =>
    intro d h
    rcases h with h | h | h
    · exact Or.inl h
    · exact Or.inr (Or.inl h)
    · refine Or.inr (Or.inr ?_)
      rw [hp]
      exact ih _ h

theorem endsWithin_frame (N source : Int) (r r' : Int → Table) (hI : PredVisited N r)
    (hsame : ∀ v, 1 ≤ v → v ≤ N → (r v).visited = true → (r' v).path = (r v).path) :
    ∀ (k : Nat) (d : Int), ((1 ≤ d ∧ d ≤ N) → (r d).visited = true) →
      EndsWithin N source r k d → EndsWithin N source r' k d := by
  intro k
  induction k with
  | zero => intro d _ h; exact h
  | succ k ih =>
    intro d hd h
    rcases h with h | h | h
    · exact Or.inl h
    · exact Or.inr (Or.inl h)
    · by_cases hr : 1 ≤ d ∧ d ≤ N
      · refine Or.inr (Or.inr ?_)
        rw [hsame d hr.1 hr.2 (hd hr)]
        apply ih _ _ h
        intro hpr
        apply hI d hr.1 hr.2
        intro h0
        rw [h0] at hpr
        omega
      · exact Or.inr (Or.inl hr)

theorem relaxLoop_ends (Q : PriorityQueue) (N source minIndex : Int) (c : Nat) :
    ∀ (edges : List EdgeNode) (T : Int → Int → Table) (pq : List AdjacentVertex),
      (T source minIndex).visited = true →
      PredVisited N (T source) → VisitedEnd N source (T source) c →
      PredVisited N ((relaxLoop Q source minIndex edges T pq).1 source) ∧
        VisitedEnd N source ((relaxLoop Q source minIndex edges T pq).1 source) c := by
  intro edges
  induction edges with
  | nil => intro T pq _ h1 h2; exact ⟨h1, h2⟩
  | cons v rest ih =>
    intro T pq hm h1 h2
    unfold relaxLoop
    split_ifs with hc
    · have hcol : ∀ j, j ≠ v.adjVertex → setT T source v.adjVertex
          ⟨(T source v.adjVertex).visited, addInt (T source minIndex).dist v.weight, minIndex⟩
          source j = T source j := fun j hj => setT_col _ _ _ _ _ _ hj
      have hvis : ∀ j, (T source j).visited = true → j ≠ v.adjVertex := by
        intro j hj e
        rw [e, hc.1] at hj
        exact Bool.noConfusion hj
      simp only
      apply ih
      · rw [hcol _ (hvis _ hm)]; exact hm
      · intro w hw1 hw2 hp
        by_cases hw : w = v.adjVertex
        · subst hw
          rw [setT_same] at hp ⊢
          simp only
          rw [hcol _ (hvis _ hm)]
          exact hm
        · rw [hcol w hw] at hp ⊢
          have := h1 w hw1 hw2 hp
          rw [hcol _ (hvis _ this)]
          exact this
      · intro x hx1 hx2 hxv
        have hxne : x ≠ v.adjVertex := by
          intro e
          rw [e, setT_same] at hxv
          simp only at hxv
          rw [hc.1] at hxv
          exact Bool.noConfusion hxv
        rw [hcol x hxne] at hxv
        refine endsWithin_frame N source (T source) _ h1 ?_ c x (fun _ => hxv)
          (h2 x hx1 hx2 hxv)
        intro y _ _ hy
        rw [hcol y (hvis y hy)]
    · exact ih T pq hm h1 h2

theorem mainLoop_ends (Q : PriorityQueue) (edgeHead : Int → List EdgeNode) (N source : Int) :
    ∀ (n : Nat) (T : Int → Int → Table) (pq : List AdjacentVertex) (T' : Int → Int → Table)
      (c : Nat), mainLoop Q edgeHead source n T pq = some T' →
      PredVisited N (T source) → VisitedEnd N source (T source) c →
      PredVisited N (T' source) ∧ VisitedEnd N source (T' source) (c + n) := by
  intro n
  induction n with
  | zero =>
    intro T pq T' c h h1 h2
    simp only [mainLoop, Option.some.injEq] at h
    rw [← h]
    exact ⟨h1, h2⟩
  | succ n ih =>
    intro T pq T' c h h1 h2
    unfold mainLoop at h
    cases hpop : Q.pop pq with
    | none => rw [hpop] at h; exact Option.noConfusion h
    | some p =>
      obtain ⟨a, r⟩ := p
      rw [hpop] at h
      simp only at h
      split_ifs at h with hc
      · have hpath : ∀ j, (setT T source a.vertexIndex
            ⟨true, (T source a.vertexIndex).dist, (T source a.vertexIndex).path⟩
            source j).path = (T source j).path := by
          intro j
          by_cases hj : j = a.vertexIndex
          · subst hj; simp [setT]
          · simp [setT, hj]
        have hvis : ∀ j, (T source j).visited = true →
            (setT T source a.vertexIndex
              ⟨true, (T source a.vertexIndex).dist, (T source a.vertexIndex).path⟩
              source j).visited = true := by
          intro j hv
          by_cases hj : j = a.vertexIndex
          · subst hj; simp [setT]
          · simp only [setT, hj, and_false, if_false]; exact hv
        have hvis' : ∀ j, j ≠ a.vertexIndex →
            (setT T source a.vertexIndex
              ⟨true, (T source a.vertexIndex).dist, (T source a.vertexIndex).path⟩
              source j).visited = true → (T source j).visited = true := by
          intro j hj hv
          simpa [setT, hj] using hv
        have k1 : PredVisited N (setT T source a.vertexIndex
            ⟨true, (T source a.vertexIndex).dist, (T source a.vertexIndex).path⟩ source) := by
          intro w hw1 hw2 hp
          rw [hpath] at hp ⊢
          exact hvis _ (h1 w hw1 hw2 hp)
        have k2 : VisitedEnd N source (setT T source a.vertexIndex
            ⟨true, (T source a.vertexIndex).dist, (T source a.vertexIndex).path⟩ source)
            (c + 1) := by
          intro x hx1 hx2 hxv
          by_cases hxa : x = a.vertexIndex
          · refine Or.inr (Or.inr ?_)
            rw [hpath]
            by_cases hpr : 1 ≤ (T source x).path ∧ (T source x).path ≤ N
            · have hp0 : (T source x).path ≠ 0 := by
                intro h0
                rw [h0] at hpr
                omega
              exact endsWithin_congr_path N source (T source) _ hpath c _
                (h2 _ hpr.1 hpr.2 (h1 x hx1 hx2 hp0))
            · exact endsWithin_of_stop N source _ c _ (Or.inr hpr)
          · exact endsWithin_succ N source _ c x
              (endsWithin_congr_path N source (T source) _ hpath c x
                (h2 x hx1 hx2 (hvis' x hxa hxv)))
        obtain ⟨r1, r2⟩ := relaxLoop_ends Q N source a.vertexIndex (c + 1)
          (edgeHead a.vertexIndex) _ r (by rw [setT_same]) k1 k2
        have := ih _ _ T' (c + 1) h r1 r2
        rw [show c + 1 + n = c + (n + 1) by omega] at this
        exact this
      · obtain ⟨r1, r2⟩ := ih _ _ T' c h h1 h2
        exact ⟨r1, fun x hx1 hx2 hxv => endsWithin_succ N source _ _ x (r2 x hx1 hx2 hxv)⟩

/-- After `findShortestPath`, the predecessor walk of the row of a valid source stops within
`size` steps, from every vertex in `1..size`. -/
theorem findShortestPath_endsWithin (Q : PriorityQueue) (g g' : Graph) (s d : Int)
    (hs : g.isValidVertex s = true) (hd : g.isValidVertex d = true)
    (h : findShortestPath Q g = some g') :
    EndsWithin g.size s (g'.T s) g.size.toNat d := by
  have hsr := (isValidVertex_iff g s).mp hs
  have hdr := (isValidVertex_iff g d).mp hd
  by_cases hne : g.edgeHead s = []
  · have hrow : ∀ j, 1 ≤ j → j ≤ g.size → g'.T s j = ⟨false, INT_MAX, 0⟩ := by
      intro j h1 h2
      rw [sourceLoop_row_of_no_edges Q s _ _ g' h hne j, resetTable_T,
        if_pos ⟨hsr, h1, h2⟩]
    refine endsWithin_le g.size s _ d 1 _ (by omega) ?_
    refine Or.inr (Or.inr ?_)
    rw [hrow d hdr.1 hdr.2]
    have h0 : ¬ (1 ≤ (0 : Int) ∧ (0 : Int) ≤ g.size) := by omega
    exact Or.inr h0
  · have hmem : s ∈ vertexIds (resetTable g).size := (mem_vertexIds _ _).mpr hsr
    obtain ⟨Tb, T', hTb, hmain, hrow⟩ :=
      sourceLoop_row Q s _ _ g' h hmem (vertexIds_nodup _) hne
    have hstart : ∀ j, 1 ≤ j → j ≤ g.size →
        (startTable Tb s s j).path = 0 ∧ (startTable Tb s s j).visited = false := by
      intro j h1 h2
      have e1 : (startTable Tb s s j).path = (Tb s j).path := by
        by_cases hj : j = s
        · subst hj; simp [startTable, setT]
        · simp [startTable, setT, hj]
      have e2 : (startTable Tb s s j).visited = (Tb s j).visited := by
        by_cases hj : j = s
        · subst hj; simp [startTable, setT]
        · simp [startTable, setT, hj]
      rw [e1, e2, hTb, resetTable_T, if_pos ⟨hsr, h1, h2⟩]
      exact ⟨rfl, rfl⟩
    obtain ⟨r1, r2⟩ := mainLoop_ends Q g.edgeHead g.size s (g.size - 1).toNat
      (startTable Tb s) _ T' 0 hmain
      (fun w h1 h2 hp => absurd (hstart w h1 h2).1 hp)
      (fun v h1 h2 hv => by
        rw [(hstart v h1 h2).2] at hv
        exact Bool.noConfusion hv)
    rw [hrow]
    have hN : g.size.toNat = 0 + (g.size - 1).toNat + 1 := by omega
    rw [hN]
    refine Or.inr (Or.inr ?_)
    by_cases hpr : 1 ≤ (T' s d).path ∧ (T' s d).path ≤ g.size
    · have hp0 : (T' s d).path ≠ 0 := by
        intro h0
        rw [h0] at hpr
        omega
      exact r2 _ hpr.1 hpr.2 (r1 d hdr.1 hdr.2 hp0)
    · exact endsWithin_of_stop g.size s _ _ _ (Or.inr hpr)

theorem relaxLoop_inRange (Q : PriorityQueue) (N source minIndex : Int)
    (hm : 1 ≤ minIndex ∧ minIndex ≤ N) :
    ∀ (edges : List EdgeNode) (T : Int → Int → Table) (pq : List AdjacentVertex),
      PredInRange N (T source) →
      PredInRange N ((relaxLoop Q source minIndex edges T pq).1 source) := by
  intro edges
  induction edges with
  | nil => intro T pq h; exact h
  | cons v rest ih =>
    intro T pq h
    unfold relaxLoop
    split_ifs
    · simp only
      apply ih
      intro w h1 h2
      by_cases hw : w = v.adjVertex
      · subst hw
        rw [setT_same]
        exact Or.inr hm
      · rw [setT_col _ _ _ _ _ _ hw]
        exact h w h1 h2
    · exact ih T pq h

theorem mainLoop_inRange (Q : PriorityQueue) (hQ : Q.Lawful) (edgeHead : Int → List EdgeNode)
    (N source : Int)
    (hwf : ∀ v, 1 ≤ v → v ≤ N → ∀ e ∈ edgeHead v, 1 ≤ e.adjVertex ∧ e.adjVertex ≤ N) :
    ∀ (n : Nat) (T : Int → Int → Table) (pq : List AdjacentVertex) (T' : Int → Int → Table),
      (∀ b ∈ pq, 1 ≤ b.vertexIndex ∧ b.vertexIndex ≤ N) →
      PredInRange N (T source) → mainLoop Q edgeHead source n T pq = some T' →
      PredInRange N (T' source) := by
  intro n
  induction n with
  | zero =>
    intro T pq T' _ hT h
    simp only [mainLoop, Option.some.injEq] at h
    rw [← h]
    exact hT
  | succ n ih =>
    intro T pq T' hpq hT h
    unfold mainLoop at h
    cases hpop : Q.pop pq with
    | none => rw [hpop] at h; exact Option.noConfusion h
    | some p =>
      obtain ⟨a, r⟩ := p
      rw [hpop] at h
      simp only at h
      have hperm := hQ.pop_perm pq a r hpop
      have ha : 1 ≤ a.vertexIndex ∧ a.vertexIndex ≤ N :=
        hpq a (hperm.mem_iff.mpr (List.mem_cons_self _ _))
      have hr : ∀ b ∈ r, 1 ≤ b.vertexIndex ∧ b.vertexIndex ≤ N :=
        fun b hb => hpq b (hperm.mem_iff.mpr (List.mem_cons_of_mem _ hb))
      split_ifs at h
      · refine ih _ _ T' ?_ ?_ h
        · intro b hb
          rcases relaxLoop_mem Q hQ source _ _ _ _ b hb with hb1 | ⟨e, he, hbe⟩
          · exact hr b hb1
          · rw [hbe]
            exact hwf _ ha.1 ha.2 e he
        · apply relaxLoop_inRange Q N source a.vertexIndex ha
          intro w h1 h2
          have : (setT T source a.vertexIndex
              ⟨true, (T source a.vertexIndex).dist, (T source a.vertexIndex).path⟩
              source w).path = (T source w).path := by
            by_cases hw : w = a.vertexIndex
            · subst hw; simp [setT]
            · simp [setT, hw]
          rw [this]
          exact hT w h1 h2
      · exact ih _ _ T' hr hT h

/-- After `findShortestPath` on a graph whose stored edges lead to valid vertices, every
predecessor in the row of a valid source is 0 or a valid vertex. -/
theorem findShortestPath_inRange (Q : PriorityQueue) (hQ : Q.Lawful) (g g' : Graph) (s : Int)
    (hs : g.isValidVertex s = true)
    (hwf : ∀ v, 1 ≤ v → v ≤ g.size →
      ∀ e ∈ g.edgeHead v, 1 ≤ e.adjVertex ∧ e.adjVertex ≤ g.size)
    (h : findShortestPath Q g = some g') : PredInRange g.size (g'.T s) := by
  have hsr := (isValidVertex_iff g s).mp hs
  by_cases hne : g.edgeHead s = []
  · intro w h1 h2
    rw [sourceLoop_row_of_no_edges Q s _ _ g' h hne w, resetTable_T, if_pos ⟨hsr, h1, h2⟩]
    exact Or.inl rfl
  · have hmem : s ∈ vertexIds (resetTable g).size := (mem_vertexIds _ _).mpr hsr
    obtain ⟨Tb, T', hTb, hmain, hrow⟩ :=
      sourceLoop_row Q s _ _ g' h hmem (vertexIds_nodup _) hne
    rw [hrow]
    refine mainLoop_inRange Q hQ g.edgeHead g.size s hwf _ _ _ T' ?_ ?_ hmain
    · intro b hb
      rcases startQueue_mem Q hQ _ _ b hb with rfl | ⟨_, hb1, hb2⟩
      · exact hsr
      · exact ⟨hb1, hb2⟩
    · intro w h1 h2
      have : (startTable Tb s s w).path = (Tb s w).path := by
        by_cases hw : w = s
        · subst hw; simp [startTable, setT]
        · simp [startTable, setT, hw]
      rw [this, hTb, resetTable_T, if_pos ⟨hsr, h1, h2⟩]
      exact Or.inl rfl

theorem predEnd_of_endsWithin (g : Graph) (source : Int) :
    ∀ (k : Nat) (d : Int), EndsWithin g.size source (g.T source) k d →
      ∃ e j, predEnd g source (k + 1) d = some (e, j) ∧ j ≤ k ∧
        (e = source ∨ g.isValidVertex e = false) := by
  have hstop : ∀ (f : Nat) (d : Int), (d = source ∨ ¬ (1 ≤ d ∧ d ≤ g.size)) →
      predEnd g source (f + 1) d = some (d, 0) ∧ (d = source ∨ g.isValidVertex d = false) := by
    intro f d h
    have hc : d = source ∨ g.isValidVertex d = false := by
      rcases h with h | h
      · exact Or.inl h
      · refine Or.inr ?_
        cases hv : g.isValidVertex d with
        | false => rfl
        | true => exact absurd ((isValidVertex_iff g d).mp hv) h
    exact ⟨by simp only [predEnd, if_pos hc], hc⟩
  intro k
  induction k with
  | zero =>
    intro d h
    obtain ⟨h1, h2⟩ := hstop 0 d h
    exact ⟨d, 0, h1, le_refl _, h2⟩
  | succ k ih =>
    intro d h
    by_cases hs : d = source ∨ ¬ (1 ≤ d ∧ d ≤ g.size)
    · obtain ⟨h1, h2⟩ := hstop (k + 1) d hs
      exact ⟨d, 0, h1, Nat.zero_le _, h2⟩
    · have hrec : EndsWithin g.size source (g.T source) k (g.T source d).path := by
        rcases h with h | h | h
        · exact absurd (Or.inl h) hs
        · exact absurd (Or.inr h) hs
        · exact h
      obtain ⟨e, j, hj, hjk, he⟩ := ih _ hrec
      have hc : ¬ (d = source ∨ g.isValidVertex d = false) := by
        intro hc
        rcases hc with hc | hc
        · exact hs (Or.inl hc)
        · apply hs
          refine Or.inr ?_
          intro hr
          rw [(isValidVertex_iff g d).mpr hr] at hc
          exact Bool.noConfusion hc
      refine ⟨e, j + 1, ?_, by omega, he⟩
      rw [predEnd, if_neg hc, hj]
      rfl

theorem predEnd_end (g : Graph) (source : Int) :
    ∀ (f : Nat) (d e : Int) (k : Nat), predEnd g source f d = some (e, k) →
      e = d ∨ ∃ w, g.isValidVertex w = true ∧ e = (g.T source w).path := by
  intro f
  induction f with
  | zero => intro d e k h; simp [predEnd] at h
  | succ f ih =>
    intro d e k h
    unfold predEnd at h
    split_ifs at h with hc
    · simp only [Option.some.injEq, Prod.mk.injEq] at h
      exact Or.inl h.1.symm
    · simp only [Option.map_eq_some'] at h
      obtain ⟨⟨e', k'⟩, hr, heq⟩ := h
      simp only [Prod.mk.injEq] at heq
      obtain ⟨rfl, _⟩ := heq
      have hd : g.isValidVertex d = true := by
        cases hv : g.isValidVertex d with
        | true => rfl
        | false => exact absurd (Or.inr hv) hc
      rcases ih _ _ _ hr with h1 | h1
      · exact Or.inr ⟨d, hd, h1⟩
      · exact Or.inr h1

theorem printPath_isSome_of_predEnd (g : Graph) (source : Int) :
    ∀ (f : Nat) (d : Int), (predEnd g source f d).isSome = true →
      (printPath g source f d).isSome = true := by
  intro f
  induction f with
  | zero => intro d h; simp [predEnd] at h
  | succ f ih =>
    intro d h
    unfold printPath
    split_ifs with h1 h2 h3 h4
    · rfl
    · rfl
    · rfl
    · unfold predEnd at h
      have hc : ¬ (d = source ∨ g.isValidVertex d = false) := by
        intro hc
        rcases hc with hc | hc
        · exact h4 hc
        · rw [hc] at h2
          exact h2 rfl
      rw [if_neg hc, Option.isSome_map'] at h
      rw [Option.isSome_map']
      exact ih _ h
    · rfl

theorem printDestinations_isSome_of_predEnd (g : Graph) (source : Int) :
    ∀ (f : Nat) (d : Int), (predEnd g source f d).isSome = true →
      (printDestinations g source f d).isSome = true := by
  intro f
  induction f with
  | zero => intro d h; simp [predEnd] at h
  | succ f ih =>
    intro d h
    unfold printDestinations
    by_cases h1 : (!g.isValidVertex source) = true
    · rw [if_pos h1]; rfl
    · rw [if_neg h1]
      by_cases h2 : (!g.isValidVertex d) = true
      · rw [if_pos h2]; rfl
      · rw [if_neg h2]
        by_cases h3 : g.edgeHead source ≠ []
        · rw [if_pos h3]
          by_cases h4 : d = source
          · rw [if_pos h4]; rfl
          · rw [if_neg h4]
            unfold predEnd at h
            have hc : ¬ (d = source ∨ g.isValidVertex d = false) := by
              intro hc
              rcases hc with hc | hc
              · exact h4 hc
              · rw [hc] at h2
                exact h2 rfl
            rw [if_neg hc, Option.isSome_map'] at h
            have hrec := ih _ h
            cases hr : printDestinations g source f (g.T source d).path with
            | none => rw [hr] at hrec; exact Bool.noConfusion hrec
            | some res =>
              cases res with
              | nullDeref => rfl
              | printed out =>
                simp only
                by_cases h5 : g.isValidVertex (g.T source d).path = true
                · rw [if_pos h5]; rfl
                · rw [if_neg h5]; rfl
        · rw [if_neg h3]; rfl

/-- Claim C22: for every lawful queue, every graph with any prior table, and every valid
source and destination: `findShortestPath` runs to its end, and in its table the predecessor
walk from the destination stops after at most `size` steps, at the source or at a value that
is no valid vertex, which is the value 0 when the stored edges of the graph lead to valid
vertices; with it the recursion of `printPath` and of `printDestinations` ends, at a depth of
at most `size + 1` calls. -/
theorem C22_predecessor_walk_terminates (Q : PriorityQueue) (hQ : Q.Lawful) (g : Graph)
    (source dest : Int) (hs : g.isValidVertex source = true)
    (hd : g.isValidVertex dest = true) :
    ∃ g' e k, findShortestPath Q g = some g' ∧
      predEnd g' source (g.size.toNat + 1) dest = some (e, k) ∧ k ≤ g.size.toNat ∧
      (e = source ∨ g'.isValidVertex e = false) ∧
      ((∀ v, 1 ≤ v → v ≤ g.size →
          ∀ x ∈ g.edgeHead v, 1 ≤ x.adjVertex ∧ x.adjVertex ≤ g.size) →
        e = source ∨ e = 0) ∧
      (printPath g' source (g.size.toNat + 1) dest).isSome = true ∧
      (printDestinations g' source (g.size.toNat + 1) dest).isSome = true := by
  obtain ⟨g', hg'⟩ := findShortestPath_some Q hQ g
  obtain ⟨hsz, _, _⟩ := sourceLoop_inv Q _ _ g' hg'
  have hsize : g'.size = g.size := hsz
  have hvalid : ∀ v, g'.isValidVertex v = g.isValidVertex v := by
    intro v
    simp [isValidVertex, hsize]
  have hends := findShortestPath_endsWithin Q g g' source dest hs hd hg'
  rw [← hsize] at hends
  obtain ⟨e, k, hpe, hk, he⟩ := predEnd_of_endsWithin g' source _ dest hends
  rw [hsize] at hpe hk
  have hsome : (predEnd g' source (g.size.toNat + 1) dest).isSome = true := by
    rw [hpe]; rfl
  refine ⟨g', e, k, hg', hpe, hk, he, ?_, printPath_isSome_of_predEnd g' source _ dest hsome,
    printDestinations_isSome_of_predEnd g' source _ dest hsome⟩
  intro hwf
  have hin := findShortestPath_inRange Q hQ g g' source hs hwf hg'
  rcases he with he | he
  · exact Or.inl he
  · rcases predEnd_end g' source _ dest e k hpe with h1 | ⟨w, hw, h1⟩
    · exfalso
      rw [h1, hvalid, hd] at he
      exact Bool.noConfusion he
    · rw [hvalid] at hw
      obtain ⟨w1, w2⟩ := (isValidVertex_iff g w).mp hw
      rcases hin w w1 w2 with h0 | hr
      · exact Or.inr (by rw [h1, h0])
      · exfalso
        rw [hvalid, h1, (isValidVertex_iff g _).mpr hr] at he
        exact Bool.noConfusion he

/-- The statement of C22 on the example with the isolated vertex 4, for the pair 1 -> 4,
whose walk stops at 0. -/
theorem C22_predecessor_walk_witness :
    ∃ g' e k, findShortestPath listPQ isolatedGraph = some g' ∧
      predEnd g' 1 (isolatedGraph.size.toNat + 1) 4 = some (e, k) ∧
      k ≤ isolatedGraph.size.toNat ∧
      (e = 1 ∨ g'.isValidVertex e = false) ∧
      ((∀ v, 1 ≤ v → v ≤ isolatedGraph.size →
          ∀ x ∈ isolatedGraph.edgeHead v, 1 ≤ x.adjVertex ∧ x.adjVertex ≤ isolatedGraph.size) →
        e = 1 ∨ e = 0) ∧
      (printPath g' 1 (isolatedGraph.size.toNat + 1) 4).isSome = true ∧
      (printDestinations g' 1 (isolatedGraph.size.toNat + 1) 4).isSome = true :=
  C22_predecessor_walk_terminates listPQ listPQ_lawful isolatedGraph 1 4
    (by decide) (by decide)

/-! ## The order of an adjacency list and the distances -/

/-- Claim C25, the program on `tieGraphA` and `tieGraphB`, which have the same vertex count
and, vertex by vertex, the same edges in a different order: after `findShortestPath` the
first has `T[1][5].dist = INT_MAX` and the second `T[1][5].dist = 6`, both with the queue
that pops the oldest of equal entries and with the binary heap.  From source 1 the pops are
`(1,0)`, `(2,1)`, `(3,2)`; for the fourth and last pop the stale `(3,5)` and `(4,5)` have
the same distance, and the one pushed first comes out: in the first graph the stale entry,
which leaves vertex 4 unvisited and 5 unreached. -/
theorem C25_adjacency_order_changes_distance :
    tieGraphA.size = tieGraphB.size ∧
    (∀ v ∈ vertexIds 5, (tieGraphA.edgeHead v).Perm (tieGraphB.edgeHead v)) ∧
    ((findShortestPath listPQ tieGraphA).map fun g => (g.T 1 5).dist) = some INT_MAX ∧
    ((findShortestPath listPQ tieGraphB).map fun g => (g.T 1 5).dist) = some 6 ∧
    ((findShortestPath stdHeapPQ tieGraphA).map fun g => (g.T 1 5).dist) = some INT_MAX ∧
    ((findShortestPath stdHeapPQ tieGraphB).map fun g => (g.T 1 5).dist) = some 6 ∧
    walkWeight tieGraphA 1 [4, 5] = some 6 := by
  decide!

end Graph
